import Mathlib

/-!
A shallow embedding of `src/dijkstra.js` and proofs about it.

The JS `PriorityQueue` keeps its elements in a plain array (`this.queue`);
here the backing array is a `List α` and the comparator, which JS reads live
from the object at every comparison, is passed to every operation as a
function argument.  JS numbers are `Nat`, `undefined` is `none`, and the JS
object used as a map is an association list looked up with `List.find?`.
`_pushBalance` walks the whole ancestor path of the appended element
(choosing at each level the preferred sibling of the pair) and `_popBalance`
sifts the reseated root down; both loops are written with an explicit fuel
argument that strictly dominates the number of iterations, so every
function here is executable by the kernel.

`Graph.create`, `Graph.bfs` and `Graph.dijkstra` work on a lookup table
from vertex values to vertices; the table is the association list `Adj`.
One object-identity subtlety of the source is modelled faithfully in
`createStep`: for a connection `(k, k, c)` whose key `k` is not yet stored,
the source creates two distinct `Vertex` objects for `k`, hangs the edge on
the first and then stores the second over the first, losing the edge.
-/

namespace DijkstraJS

def lswap {α : Type} [Inhabited α] (q : List α) (i j : Nat) : List α :=
  (q.set i (q.getD j default)).set j (q.getD i default)

def pushGo {α : Type} [Inhabited α] (c : α → α → Bool) : Nat → List α → Nat → List α
  | 0, q, _ => q
  | fuel + 1, q, pivot =>
    if 0 < pivot then
      let parentIndex := (pivot - 1) / 2
      let leftIndex := if pivot % 2 == 1 then pivot else pivot - 1
      let rightIndex := if pivot % 2 == 0 then pivot else pivot + 1
      let childIndex :=
        if q.length ≤ rightIndex || c (q.getD leftIndex default) (q.getD rightIndex default)
        then leftIndex else rightIndex
      let q' :=
        if c (q.getD childIndex default) (q.getD parentIndex default)
        then lswap q parentIndex childIndex else q
      pushGo c fuel q' parentIndex
    else q

def pushBalanceAux {α : Type} [Inhabited α] (c : α → α → Bool) (q : List α)
    (pivot : Nat) : List α :=
  pushGo c pivot q pivot

def push {α : Type} [Inhabited α] (c : α → α → Bool) (q : List α) (val : α) : List α :=
  pushBalanceAux c (q ++ [val]) ((q ++ [val]).length - 1)

def popGo {α : Type} [Inhabited α] (c : α → α → Bool) : Nat → List α → Nat → List α
  | 0, q, _ => q
  | fuel + 1, q, pivot =>
    if pivot + 1 < q.length then
      let leftIndex := (pivot + 1) * 2 - 1
      let rightIndex := (pivot + 1) * 2
      if leftIndex < q.length then
        let childIndex :=
          if q.length ≤ rightIndex || c (q.getD leftIndex default) (q.getD rightIndex default)
          then leftIndex else rightIndex
        let q' :=
          if c (q.getD childIndex default) (q.getD pivot default)
          then lswap q pivot childIndex else q
        popGo c fuel q' childIndex
      else q
    else q

def popBalanceAux {α : Type} [Inhabited α] (c : α → α → Bool) (q : List α)
    (pivot : Nat) : List α :=
  popGo c (q.length - pivot) q pivot

def popBalance {α : Type} [Inhabited α] (c : α → α → Bool) (q : List α) : List α :=
  let newRoot := q.getD (q.length - 1) default
  let q1 := q.dropLast
  let q2 := if 0 < q1.length then q1.set 0 newRoot else q1
  popBalanceAux c q2 0

def pop {α : Type} [Inhabited α] (c : α → α → Bool) (q : List α) : Option α × List α :=
  if 0 < q.length then (some (q.getD 0 default), popBalance c q) else (none, q)

abbrev Conn := Nat × Nat × Nat

abbrev Adj := List (Nat × List (Nat × Nat))

def lookupA (g : Adj) (k : Nat) : Option (List (Nat × Nat)) :=
  match g.find? (fun p => p.1 = k) with
  | some p => some p.2
  | none => none

def setA (g : Adj) (k : Nat) (v : List (Nat × Nat)) : Adj :=
  if (g.find? (fun p => p.1 = k)).isSome
  then g.map (fun p => if p.1 = k then (k, v) else p)
  else g ++ [(k, v)]

def createStep (g : Adj) (e : Conn) : Adj :=
  let src := e.1
  let dst := e.2.1
  let cost := e.2.2
  let srcEdges := (lookupA g src).getD []
  let dstVertexEdges :=
    if src = dst then
      if (lookupA g src).isSome then srcEdges ++ [(dst, cost)] else []
    else (lookupA g dst).getD []
  let g1 := setA g src (srcEdges ++ [(dst, cost)])
  setA g1 dst dstVertexEdges

def create (connections : List Conn) : Adj :=
  connections.foldl createStep []

def adjOf (g : Adj) (k : Nat) : List (Nat × Nat) := (lookupA g k).getD []

def keysOf (g : Adj) : List Nat := g.map Prod.fst

def totalEdges (g : Adj) : Nat := (g.map (fun p => p.2.length)).sum

abbrev DistMap := List (Nat × Option Nat)

def lookupD (d : DistMap) (k : Nat) : Option (Option Nat) :=
  match d.find? (fun p => p.1 = k) with
  | some p => some p.2
  | none => none

def setDist (d : DistMap) (k : Nat) (v : Option Nat) : DistMap :=
  if (d.find? (fun p => p.1 = k)).isSome
  then d.map (fun p => if p.1 = k then (k, v) else p)
  else d ++ [(k, v)]

def jsLt (x y : Option (Option Nat)) : Bool :=
  match x, y with
  | some (some a), some (some b) => a < b
  | _, _ => false

def dijkCompare (dist : DistMap) (child parent : Nat) : Bool :=
  jsLt (lookupD dist child) (lookupD dist parent)

def jsAdd (x : Option (Option Nat)) (cost : Nat) : Option Nat :=
  match x with
  | some (some a) => some (a + cost)
  | _ => none

def jsGtV (v : Option Nat) (cand : Option Nat) : Bool :=
  match v, cand with
  | some a, some b => b < a
  | _, _ => false

def relaxEdge (dist : DistMap) (currKey : Nat) (e : Nat × Nat) : DistMap :=
  let w := e.1
  let cand := jsAdd (lookupD dist currKey) e.2
  let dw := lookupD dist w
  if dw = none || (match dw with | some v => jsGtV v cand | none => false)
  then setDist dist w cand else dist

def relaxAll (currKey : Nat) : DistMap → List Nat → List (Nat × Nat) →
    DistMap × List Nat
  | dist, queue, [] => (dist, queue)
  | dist, queue, e :: es =>
    let dist' := relaxEdge dist currKey e
    let queue' := push (dijkCompare dist') queue e.1
    relaxAll currKey dist' queue' es

def dijkstraFuel (g : Adj) : Nat → List Nat → DistMap → List Nat → Option DistMap
  | 0, _, _, _ => none
  | fuel + 1, visited, dist, queue =>
    match queue with
    | [] => some dist
    | curr :: _ =>
      let q' := popBalance (dijkCompare dist) queue
      if visited.contains curr then dijkstraFuel g fuel visited dist q'
      else
        let out := relaxAll curr dist q' (adjOf g curr)
        dijkstraFuel g fuel (curr :: visited) out.1 out.2

def dijkstraBound (g : Adj) (queue : List Nat) : Nat :=
  queue.length + (keysOf g).length * (1 + totalEdges g) + 1

def dijkstra (g : Adj) (source : Nat) : Option DistMap :=
  dijkstraFuel g (dijkstraBound g [source]) [] [(source, some 0)] [source]

-- demo from main()
def demo : List Conn := [(1,2,2),(1,3,4),(2,4,7),(2,3,1),(3,5,3),(4,6,1),(5,4,2),(5,6,5)]

-- MaxQueue demo: push 1..5 then pop 5 times
def maxCompare (child parent : Nat) : Bool := child > parent

/-! ## Index helpers for the backing array -/

/-- Element at an index, with the JS out-of-bounds read made total. -/
def nth {α : Type} [Inhabited α] (q : List α) (i : Nat) : α := q.getD i default

/-- The heap property of §3 of the design: for every non-root position `i`,
`compare(element[i], element[parent(i)])` is false, with `parent(i) = (i-1)/2`. -/
def heapProp {α : Type} [Inhabited α] (c : α → α → Bool) (q : List α) : Prop :=
  ∀ i, i < q.length → 0 < i → c (nth q i) (nth q ((i - 1) / 2)) = false

instance {α : Type} [Inhabited α] (c : α → α → Bool) (q : List α) :
    Decidable (heapProp c q) := by
  unfold heapProp
  exact Nat.decidableBallLT _ _

/-- Repeatedly calling `pop` until the queue is empty, collecting the returned
elements: the "popping all elements" of the spec's pop-ordering property. -/
def popAllN {α : Type} [Inhabited α] (c : α → α → Bool) : Nat → List α → List α
  | 0, _ => []
  | n + 1, q => if 0 < q.length then nth q 0 :: popAllN c n (popBalance c q) else []

def popAllList {α : Type} [Inhabited α] (c : α → α → Bool) (q : List α) : List α :=
  popAllN c q.length q

/-- A push or pop request against the priority queue. -/
inductive PQOp (α : Type) where
  | pushOp (v : α)
  | popOp

/-- State effect of one operation: `push` appends and rebalances; `pop`
rebalances when elements remain and leaves an empty queue unchanged
(lines 38-41 and 53-60). -/
def applyOp {α : Type} [Inhabited α] (c : α → α → Bool) (q : List α) : PQOp α → List α
  | PQOp.pushOp v => push c q v
  | PQOp.popOp => if 0 < q.length then popBalance c q else q

/-- Run a sequence of push/pop operations from a starting backing array. -/
def runOps {α : Type} [Inhabited α] (c : α → α → Bool) (q : List α)
    (ops : List (PQOp α)) : List α :=
  ops.foldl (applyOp c) q

def numPush {α : Type} (ops : List (PQOp α)) : Nat :=
  ops.countP (fun op => match op with | PQOp.pushOp _ => true | PQOp.popOp => false)

def numPop {α : Type} (ops : List (PQOp α)) : Nat :=
  ops.countP (fun op => match op with | PQOp.pushOp _ => false | PQOp.popOp => true)

-- ===== C3: live-comparator decrease, amended =====

def isNum (o : Option (Option Nat)) : Bool :=
  match o with
  | some (some _) => true
  | _ => false

/-- The visible loop state of `Graph.dijkstra` after a given number of
iterations of the `while` loop: (visited, distance, queue). -/
def dijkstraSteps (g : Adj) : Nat → List Nat → DistMap → List Nat →
    List Nat × DistMap × List Nat
  | 0, visited, dist, queue => (visited, dist, queue)
  | n + 1, visited, dist, queue =>
    match queue with
    | [] => (visited, dist, queue)
    | curr :: _ =>
      let q' := popBalance (dijkCompare dist) queue
      if visited.contains curr then dijkstraSteps g n visited dist q'
      else
        let out := relaxAll curr dist q' (adjOf g curr)
        dijkstraSteps g n (curr :: visited) out.1 out.2

-- ===== C8: BFS reachability, termination, exactly-once =====

def bfsFuel (g : Adj) : Nat → List Nat → List Nat →
    Option (List (Nat × Nat × Nat) × List Nat)
  | 0, _, _ => none
  | fuel + 1, visited, queue =>
    match queue with
    | [] => some ([], visited)
    | curr :: rest =>
      if visited.contains curr then bfsFuel g fuel visited rest
      else
        let edges := adjOf g curr
        (bfsFuel g fuel (curr :: visited) (rest ++ edges.map Prod.fst)).map
          (fun out => (edges.map (fun e => (curr, e.1, e.2)) ++ out.1, out.2))

def bfsBound (g : Adj) (queue : List Nat) : Nat :=
  queue.length + (keysOf g).length * (1 + totalEdges g) + 1

def bfs (g : Adj) (source : Nat) : Option (List (Nat × Nat × Nat) × List Nat) :=
  bfsFuel g (bfsBound g [source]) [] [source]

/-- Reachability through vertices that all lie outside `visited` (the start
and every intermediate and final vertex included). -/
inductive AvoidReach (g : Adj) (visited : List Nat) : Nat → Nat → Prop
  | refl (a : Nat) (h : a ∉ visited) : AvoidReach g visited a a
  | tail {a b c : Nat} (hab : AvoidReach g visited a b)
      (hbc : c ∈ (adjOf g b).map Prod.fst) (hc : c ∉ visited) :
      AvoidReach g visited a c

/-- The unvisited-key count used as the termination measure for BFS. -/
def unvisitedKeys (g : Adj) (visited : List Nat) : Nat :=
  (keysOf g).countP (fun k => ! visited.contains k)

/-- The outgoing edges an edge list contributes to vertex `k`, in input
order. -/
def edgesFor (l : List Conn) (k : Nat) : List (Nat × Nat) :=
  l.filterMap (fun e => if e.1 = k then some (e.2.1, e.2.2) else none)

/-- `get()` (lines 46-48): the root element, `null` when empty. -/
def pqGet {α : Type} (q : List α) : Option α := q.head?

/-- The comparator the constructor installs when none is given
(line 23): `(child, parent) => child < parent`. -/
def defaultCompare (child parent : Nat) : Bool := child < parent

/-- The `MinQueue` preset comparator (line 127). -/
def minCompare (child parent : Nat) : Bool := child < parent

/-- A request against the public `PriorityQueue` interface (push, pop, get),
used to compare a default-constructed queue with a `MinQueue`. -/
inductive QOp (α : Type) where
  | qpush (v : α)
  | qpop
  | qget

/-- State effect of one interface request: the new backing array together
with the outputs produced so far. -/
def qstep {α : Type} [Inhabited α] (c : α → α → Bool)
    (st : List α × List (Option α)) : QOp α → List α × List (Option α)
  | QOp.qpush v => (push c st.1 v, st.2)
  | QOp.qpop => ((pop c st.1).2, st.2 ++ [(pop c st.1).1])
  | QOp.qget => (st.1, st.2 ++ [pqGet st.1])

/-- Run interface requests from an initial backing array (the constructor
copies the given array without rebalancing it). -/
def runQ {α : Type} [Inhabited α] (c : α → α → Bool) (init : List α)
    (ops : List (QOp α)) : List α × List (Option α) :=
  ops.foldl (qstep c) (init, [])

/-- Every prefix of the operation sequence has at least as many pushes as
pops. -/
def prefixBalanced {α : Type} (ops : List (PQOp α)) : Bool :=
  (List.range (ops.length + 1)).all
    (fun n => numPop (ops.take n) ≤ numPush (ops.take n))

/-- A walk in the graph from `a` to `c` whose edge costs sum to the third
index. -/
inductive Walk (g : Adj) : Nat → Nat → Nat → Prop
  | refl (a : Nat) : Walk g a a 0
  | tail {a b n : Nat} (h : Walk g a b n) {c cost : Nat}
      (hedge : (c, cost) ∈ adjOf g b) : Walk g a c (n + cost)

/-- The distance map `Graph.dijkstra` computes for the demo graph of
`main()`. -/
def demoDM : DistMap :=
  [(1, some 0), (2, some 2), (3, some 3), (4, some 8), (5, some 6), (6, some 9)]

/-- An edge list with non-negative costs on which `Graph.dijkstra` returns a
non-minimal distance (vertex 13). -/
def cex2Edges : List Conn :=
  [(1,4,60),(1,3,18),(1,2,10),(1,5,40),(1,6,41),(1,7,45),(1,8,42),(1,9,43),(1,10,50),
   (2,4,10),(3,11,12),(3,12,28),(11,5,5),(5,13,1)]

def cexG : Adj := create cex2Edges

/-- What `dijkstra cexG 1` actually returns (`13` gets 41; the true minimum
is 36). -/
def cexDM : DistMap :=
  [(1, some 0), (4, some 20), (3, some 18), (2, some 10), (5, some 35), (6, some 41),
   (7, some 45), (8, some 42), (9, some 43), (10, some 50), (11, some 30), (12, some 46),
   (13, some 41)]

/-- An edge list whose dijkstra run reaches a state in which a queued
vertex's distance is decreased and the following pop is not minimal. -/
def c3Edges : List Conn :=
  [(1,13,22),(1,4,60),(1,3,18),(1,2,10),(1,5,40),(1,6,41),(1,7,45),(1,8,42),(1,9,43),(1,10,50),
   (2,4,10),(3,11,12),(3,12,28),(13,12,13)]

def c3Graph : Adj := create c3Edges

/-- The loop state of `dijkstra c3Graph` right before vertex 13 is popped
(after 4 iterations). -/
def c3State : List Nat × DistMap × List Nat :=
  dijkstraSteps c3Graph 4 [] [(1, some 0)] [1]

/-- The queue right after that pop, while 12 still holds distance 46. -/
def c3Qp : List Nat := popBalance (dijkCompare c3State.2.1) c3State.2.2

/-- Distance map and queue after relaxing the edges of 13, which decreases
the queued vertex 12 from 46 to 35 and re-pushes it. -/
def c3Relax : DistMap × List Nat := relaxAll 13 c3State.2.1 c3Qp (adjOf c3Graph 13)

/-- Distance map used to witness the amended C3 statement. -/
def w3Dist : DistMap := [(1, some 5), (2, some 7), (3, some 9)]

theorem lswap_length {α : Type} [Inhabited α] (q : List α) (i j : Nat) :
    (lswap q i j).length = q.length := by
  simp [lswap]

theorem pushGo_congr {α : Type} [Inhabited α] (c : α → α → Bool) :
    ∀ (f1 : Nat) (f2 : Nat) (q : List α) (p : Nat), p ≤ f1 → p ≤ f2 →
      pushGo c f1 q p = pushGo c f2 q p := by
  intro f1
  induction f1 with
  | zero =>
    intro f2 q p h1 _
    have hp : p = 0 := Nat.le_zero.mp h1
    subst hp
    cases f2 with
    | zero => rfl
    | succ f2 => simp [pushGo]
  | succ f1 ih =>
    intro f2 q p h1 h2
    cases f2 with
    | zero =>
      have hp : p = 0 := Nat.le_zero.mp h2
      subst hp
      simp [pushGo]
    | succ f2 =>
      by_cases hp : 0 < p
      · simp only [pushGo, if_pos hp]
        exact ih f2 _ _ (by omega) (by omega)
      · simp only [pushGo, if_neg hp]

theorem pushBalanceAux_eq {α : Type} [Inhabited α] (c : α → α → Bool) (q : List α)
    (pivot : Nat) :
    pushBalanceAux c q pivot =
      if h : 0 < pivot then
        let parentIndex := (pivot - 1) / 2
        let leftIndex := if pivot % 2 == 1 then pivot else pivot - 1
        let rightIndex := if pivot % 2 == 0 then pivot else pivot + 1
        let childIndex :=
          if q.length ≤ rightIndex || c (q.getD leftIndex default) (q.getD rightIndex default)
          then leftIndex else rightIndex
        let q' :=
          if c (q.getD childIndex default) (q.getD parentIndex default)
          then lswap q parentIndex childIndex else q
        pushBalanceAux c q' parentIndex
      else q := by
  cases pivot with
  | zero => rfl
  | succ n =>
    rw [dif_pos (Nat.succ_pos n)]
    show pushGo c (n + 1) q (n + 1) = _
    simp only [pushGo, if_pos (Nat.succ_pos n)]
    exact pushGo_congr c n ((n + 1 - 1) / 2) _ _ (by omega) (by omega)

theorem popGo_congr {α : Type} [Inhabited α] (c : α → α → Bool) :
    ∀ (f1 : Nat) (f2 : Nat) (q : List α) (p : Nat),
      q.length - p ≤ f1 → q.length - p ≤ f2 →
      popGo c f1 q p = popGo c f2 q p := by
  intro f1
  induction f1 with
  | zero =>
    intro f2 q p h1 _
    have hp : ¬ (p + 1 < q.length) := by omega
    cases f2 with
    | zero => rfl
    | succ f2 => simp [popGo, hp]
  | succ f1 ih =>
    intro f2 q p h1 h2
    cases f2 with
    | zero =>
      have hp : ¬ (p + 1 < q.length) := by omega
      simp [popGo, hp]
    | succ f2 =>
      by_cases hp : p + 1 < q.length
      · by_cases hl : (p + 1) * 2 - 1 < q.length
        · simp only [popGo, if_pos hp, if_pos hl]
          refine ih f2 _ _ ?_ ?_ <;>
            split <;> split <;> (try simp only [lswap_length]) <;> omega
        · simp only [popGo, if_pos hp, if_neg hl]
      · simp only [popGo, if_neg hp]

theorem popBalanceAux_eq {α : Type} [Inhabited α] (c : α → α → Bool) (q : List α)
    (pivot : Nat) :
    popBalanceAux c q pivot =
      if h : pivot + 1 < q.length then
        let leftIndex := (pivot + 1) * 2 - 1
        let rightIndex := (pivot + 1) * 2
        if hl : leftIndex < q.length then
          let childIndex :=
            if q.length ≤ rightIndex || c (q.getD leftIndex default) (q.getD rightIndex default)
            then leftIndex else rightIndex
          let q' :=
            if c (q.getD childIndex default) (q.getD pivot default)
            then lswap q pivot childIndex else q
          popBalanceAux c q' childIndex
        else q
      else q := by
  by_cases hp : pivot + 1 < q.length
  · rw [dif_pos hp]
    have hf : q.length - pivot = (q.length - pivot - 1) + 1 := by omega
    show popGo c (q.length - pivot) q pivot = _
    rw [hf]
    simp only [popGo, if_pos hp]
    by_cases hl : (pivot + 1) * 2 - 1 < q.length
    · rw [if_pos hl, dif_pos hl]
      refine popGo_congr c _ _ _ _ ?_ ?_ <;>
        split <;> split <;> (try simp only [lswap_length]) <;> omega
    · rw [if_neg hl, dif_neg hl]
  · rw [dif_neg hp]
    show popGo c (q.length - pivot) q pivot = q
    rcases hn : q.length - pivot with _ | m
    · rfl
    · simp [popGo, hp]

section IndexLemmas

variable {α : Type} [Inhabited α]

theorem nth_set_self (q : List α) (i : Nat) (v : α) (h : i < q.length) :
    nth (q.set i v) i = v := by
  simp [nth, List.getD_eq_getElem?_getD, List.getElem?_set_self h]

theorem nth_set_ne (q : List α) (i j : Nat) (v : α) (h : i ≠ j) :
    nth (q.set i v) j = nth q j := by
  simp [nth, List.getD_eq_getElem?_getD, List.getElem?_set_ne h]

theorem nth_lswap_left (q : List α) (i j : Nat) (hi : i < q.length) (hj : j ≠ i) :
    nth (lswap q i j) i = nth q j := by
  unfold lswap
  rw [nth_set_ne _ _ _ _ hj, nth_set_self _ _ _ hi]
  rfl

theorem nth_lswap_right (q : List α) (i j : Nat) (hj : j < q.length) :
    nth (lswap q i j) j = nth q i := by
  unfold lswap
  rw [nth_set_self _ _ _ (by simpa using hj)]
  rfl

theorem nth_lswap_other (q : List α) (i j t : Nat) (hti : t ≠ i) (htj : t ≠ j) :
    nth (lswap q i j) t = nth q t := by
  unfold lswap
  rw [nth_set_ne _ _ _ _ (fun h => htj h.symm), nth_set_ne _ _ _ _ (fun h => hti h.symm)]

theorem lswap_self (q : List α) (i : Nat) : lswap q i i = q := by
  unfold lswap
  rcases Nat.lt_or_ge i q.length with h | h
  · apply List.ext_getElem
    · simp
    · intro n h1 h2
      simp only [List.getElem_set]
      split
      · subst n
        simp [nth, List.getD_eq_getElem?_getD, List.getElem?_set_self h,
          List.getElem?_eq_getElem h]
      · rfl
  · rw [List.set_eq_of_length_le h, List.set_eq_of_length_le h]

theorem lswap_perm [DecidableEq α] (q : List α) (i j : Nat)
    (hi : i < q.length) (hj : j < q.length) : List.Perm (lswap q i j) q := by
  rcases eq_or_ne i j with rfl | hne
  · rw [lswap_self]
  · rw [List.perm_iff_count]
    intro x
    unfold lswap
    rw [List.getD_eq_getElem q default hj, List.getD_eq_getElem q default hi]
    rw [List.count_set _ _ _ _ (by simpa using hj), List.count_set _ _ _ _ hi]
    rw [List.getElem_set_ne hne]
    have hi1 : (q[i] == x) = true → 1 ≤ List.count x q := by
      intro h
      rw [beq_iff_eq] at h
      subst h
      exact List.count_pos_iff.mpr (List.getElem_mem hi)
    have hj1 : (q[j] == x) = true → 1 ≤ List.count x q := by
      intro h
      rw [beq_iff_eq] at h
      subst h
      exact List.count_pos_iff.mpr (List.getElem_mem hj)
    split_ifs <;> simp_all <;> omega

end IndexLemmas

theorem getD_eq_nth {α : Type} [Inhabited α] (q : List α) (i : Nat) :
    q.getD i default = nth q i := rfl

theorem nth_mem {α : Type} [Inhabited α] (q : List α) (i : Nat) (h : i < q.length) :
    nth q i ∈ q := by
  rw [nth, List.getD_eq_getElem q default h]
  exact List.getElem_mem h

theorem mem_lswap {α : Type} [Inhabited α] {x : α} {q : List α} {i j : Nat}
    (hi : i < q.length) (hj : j < q.length) (hx : x ∈ lswap q i j) : x ∈ q := by
  unfold lswap at hx
  rcases List.mem_or_eq_of_mem_set hx with hx2 | rfl
  · rcases List.mem_or_eq_of_mem_set hx2 with hx3 | rfl
    · exact hx3
    · exact nth_mem q j hj
  · exact nth_mem q i hi

section HeapCore

variable {α : Type} [Inhabited α] (c : α → α → Bool) (P : α → Prop)

/-- One step of the sift-up loop keeps the almost-heap invariant: if the heap
property can only fail at the pivot's pair with its parent, and the pivot's
sibling pair additionally satisfies the comparator against the grandparent,
then after the step the same holds one level up. -/
theorem pushStep_inv
    (hasym : ∀ a, P a → ∀ b, P b → c a b = true → c b a = false)
    (hneg : ∀ a, P a → ∀ b, P b → ∀ d, P d → c a b = false → c b d = false → c a d = false)
    (p k CH : Nat) (q : List α)
    (hP : ∀ x ∈ q, P x) (hplen : p < q.length)
    (hinv1 : ∀ i, i < q.length → 0 < i → i ≠ p → c (nth q i) (nth q ((i - 1) / 2)) = false)
    (hinv2 : 0 < p → ∀ ch, ch < q.length → (ch - 1) / 2 = p →
      c (nth q ch) (nth q ((p - 1) / 2)) = false)
    (hp : 0 < p) (hk : k = (p - 1) / 2)
    (hCH : CH = 2 * k + 1 ∨ CH = 2 * k + 2) (hCHlen : CH < q.length)
    (hsib : ∀ s, (s = 2 * k + 1 ∨ s = 2 * k + 2) → s ≠ CH → s < q.length →
      c (nth q s) (nth q CH) = false) :
    ∀ q', q' = (if c (nth q CH) (nth q k) = true then lswap q k CH else q) →
    (∀ x ∈ q', P x) ∧ q'.length = q.length ∧
    (∀ i, i < q'.length → 0 < i → i ≠ k → c (nth q' i) (nth q' ((i - 1) / 2)) = false) ∧
    (0 < k → ∀ ch, ch < q'.length → (ch - 1) / 2 = k →
      c (nth q' ch) (nth q' ((k - 1) / 2)) = false) := by
  intro q' hq'
  have hklen : k < q.length := by omega
  have hkCH : k ≠ CH := by omega
  have hpk : p = 2 * k + 1 ∨ p = 2 * k + 2 := by omega
  have hPk : P (nth q k) := hP _ (nth_mem q k hklen)
  have hPCH : P (nth q CH) := hP _ (nth_mem q CH hCHlen)
  have hPp : P (nth q p) := hP _ (nth_mem q p hplen)
  by_cases hsw : c (nth q CH) (nth q k) = true
  · -- swap case: the chosen child must be the pivot itself
    have hCHp : CH = p := by
      by_contra hne
      have := hinv1 CH hCHlen (by omega) hne
      rw [show (CH - 1) / 2 = k by omega] at this
      rw [this] at hsw
      exact Bool.false_ne_true hsw
    rw [if_pos hsw] at hq'
    subst hq'
    have hlen : (lswap q k CH).length = q.length := lswap_length q k CH
    have hnk : nth (lswap q k CH) k = nth q CH := nth_lswap_left q k CH hklen hkCH.symm
    have hnCH : nth (lswap q k CH) CH = nth q k := nth_lswap_right q k CH hCHlen
    have hno : ∀ t, t ≠ k → t ≠ CH → nth (lswap q k CH) t = nth q t :=
      fun t h1 h2 => nth_lswap_other q k CH t h1 h2
    refine ⟨fun x hx => hP x (mem_lswap hklen hCHlen hx), hlen, ?_, ?_⟩
    · intro i hi h0 hik
      rw [hlen] at hi
      rcases eq_or_ne i CH with rfl | hiCH
      · rw [show (i - 1) / 2 = k by omega, hnk, hnCH]
        exact hasym _ hPCH _ hPk hsw
      · by_cases hpar : (i - 1) / 2 = k
        · -- i is the sibling of CH
          rw [hpar, hnk, hno i hik hiCH]
          exact hsib i (by omega) hiCH hi
        · by_cases hparCH : (i - 1) / 2 = CH
          · -- i is a child of the pivot
            rw [hparCH, hnCH, hno i hik hiCH]
            have := hinv2 hp i hi (by omega)
            rw [show (p - 1) / 2 = k from hk.symm] at this
            exact this
          · rw [hno i hik hiCH, hno _ hpar hparCH]
            exact hinv1 i hi h0 (by omega)
    · intro hk0 ch hch hchpar
      rw [hlen] at hch
      have hpkk : (k - 1) / 2 ≠ k := by omega
      have hpkCH : (k - 1) / 2 ≠ CH := by omega
      rw [hno _ hpkk hpkCH]
      rcases eq_or_ne ch CH with rfl | hchCH
      · rw [hnCH]
        have := hinv1 k hklen hk0 (by omega)
        exact this
      · rw [hno ch (by omega) hchCH]
        have h1 : c (nth q ch) (nth q k) = false := by
          have := hinv1 ch hch (by omega) (by omega)
          rw [show (ch - 1) / 2 = k by omega] at this
          exact this
        have h2 : c (nth q k) (nth q ((k - 1) / 2)) = false := hinv1 k hklen hk0 (by omega)
        exact hneg _ (hP _ (nth_mem q ch hch)) _ hPk _
          (hP _ (nth_mem q _ (by omega))) h1 h2
  · -- no-swap case
    have hswf : c (nth q CH) (nth q k) = false := by
      revert hsw
      cases c (nth q CH) (nth q k) <;> simp
    rw [if_neg hsw] at hq'
    subst q'
    have hpCHf : c (nth q p) (nth q k) = false := by
      rcases eq_or_ne CH p with rfl | hne
      · exact hswf
      · have h1 : c (nth q p) (nth q CH) = false := hsib p hpk (fun h => hne h.symm) hplen
        exact hneg _ hPp _ hPCH _ hPk h1 hswf
    refine ⟨hP, rfl, ?_, ?_⟩
    · intro i hi h0 hik
      rcases eq_or_ne i p with rfl | hip
      · rw [show (i - 1) / 2 = k by omega]
        exact hpCHf
      · exact hinv1 i hi h0 hip
    · intro hk0 ch hch hchpar
      have hkp : c (nth q k) (nth q ((k - 1) / 2)) = false := hinv1 k hklen hk0 (by omega)
      have hPpk : P (nth q ((k - 1) / 2)) := hP _ (nth_mem q _ (by omega))
      have hPch : P (nth q ch) := hP _ (nth_mem q ch hch)
      rcases eq_or_ne ch CH with rfl | hchCH
      · exact hneg _ hPch _ hPk _ hPpk hswf hkp
      · have h1 : c (nth q ch) (nth q CH) = false := hsib ch (by omega) hchCH hch
        have h2 : c (nth q ch) (nth q k) = false := hneg _ hPch _ hPCH _ hPk h1 hswf
        exact hneg _ hPch _ hPk _ hPpk h2 hkp

theorem pushBalanceAux_heapProp
    (hasym : ∀ a, P a → ∀ b, P b → c a b = true → c b a = false)
    (hneg : ∀ a, P a → ∀ b, P b → ∀ d, P d → c a b = false → c b d = false → c a d = false) :
    ∀ (p : Nat) (q : List α), (∀ x ∈ q, P x) → p < q.length →
    (∀ i, i < q.length → 0 < i → i ≠ p → c (nth q i) (nth q ((i - 1) / 2)) = false) →
    (0 < p → ∀ ch, ch < q.length → (ch - 1) / 2 = p →
      c (nth q ch) (nth q ((p - 1) / 2)) = false) →
    heapProp c (pushBalanceAux c q p) := by
  intro p
  induction p using Nat.strong_induction_on with
  | _ p IH =>
    intro q hP hplen hinv1 hinv2
    rcases Nat.eq_zero_or_pos p with rfl | hp
    · rw [pushBalanceAux_eq, dif_neg (by omega)]
      intro i hi h0
      exact hinv1 i hi h0 (by omega)
    · rw [pushBalanceAux_eq, dif_pos hp]
      simp only [getD_eq_nth]
      have hL : (if (p % 2 == 1) = true then p else p - 1) = 2 * ((p - 1) / 2) + 1 := by
        rcases Nat.mod_two_eq_zero_or_one p with h | h <;> simp [h] <;> omega
      have hR : (if (p % 2 == 0) = true then p else p + 1) = 2 * ((p - 1) / 2) + 2 := by
        rcases Nat.mod_two_eq_zero_or_one p with h | h <;> simp [h] <;> omega
      rw [hL, hR]
      set k := (p - 1) / 2 with hkdef
      have hkp : k < p := by omega
      have hLlen : 2 * k + 1 < q.length := by omega
      by_cases hsel : (decide (q.length ≤ 2 * k + 2) ||
          c (nth q (2 * k + 1)) (nth q (2 * k + 2))) = true
      · rw [if_pos hsel]
        have hstep := pushStep_inv c P hasym hneg p k (2 * k + 1) q hP hplen hinv1 hinv2
          hp hkdef (Or.inl rfl) hLlen ?_ _ rfl
        · rcases hstep with ⟨h1, h2, h3, h4⟩
          exact IH k (by omega) _ h1 (by omega) h3 h4
        · intro s hs hsne hslen
          have hs2 : s = 2 * k + 2 := by omega
          subst hs2
          rcases Bool.or_eq_true_iff.mp hsel with h | h
          · rw [decide_eq_true_eq] at h
            omega
          · exact hasym _ (hP _ (nth_mem q _ hLlen)) _ (hP _ (nth_mem q _ hslen)) h
      · have hself := hsel
        rw [Bool.or_eq_true_iff] at hself
        push_neg at hself
        have hRlen : 2 * k + 2 < q.length := by
          have := hself
          by_contra hc
          exact hsel (by simp [Bool.or_eq_true_iff, decide_eq_true_eq]; omega)
        have hLR : c (nth q (2 * k + 1)) (nth q (2 * k + 2)) = false := by
          rcases Bool.eq_false_or_eq_true (c (nth q (2 * k + 1)) (nth q (2 * k + 2))) with h | h
          · exact absurd (Bool.or_eq_true_iff.mpr (Or.inr h)) (fun hh => hsel hh)
          · exact h
        rw [if_neg hsel]
        have hstep := pushStep_inv c P hasym hneg p k (2 * k + 2) q hP hplen hinv1 hinv2
          hp hkdef (Or.inr rfl) hRlen ?_ _ rfl
        · rcases hstep with ⟨h1, h2, h3, h4⟩
          exact IH k (by omega) _ h1 (by omega) h3 h4
        · intro s hs hsne hslen
          have hs2 : s = 2 * k + 1 := by omega
          subst hs2
          exact hLR

end HeapCore

theorem pushBalanceAux_len_mem {α : Type} [Inhabited α] (c : α → α → Bool) :
    ∀ (p : Nat) (q : List α), p < q.length →
    (pushBalanceAux c q p).length = q.length ∧
    (∀ x ∈ pushBalanceAux c q p, x ∈ q) := by
  intro p
  induction p using Nat.strong_induction_on with
  | _ p IH =>
    intro q hplen
    rcases Nat.eq_zero_or_pos p with rfl | hp
    · rw [pushBalanceAux_eq, dif_neg (by omega)]
      exact ⟨rfl, fun x hx => hx⟩
    · rw [pushBalanceAux_eq, dif_pos hp]
      simp only [getD_eq_nth]
      have hL : (if (p % 2 == 1) = true then p else p - 1) = 2 * ((p - 1) / 2) + 1 := by
        rcases Nat.mod_two_eq_zero_or_one p with h | h <;> simp [h] <;> omega
      have hR : (if (p % 2 == 0) = true then p else p + 1) = 2 * ((p - 1) / 2) + 2 := by
        rcases Nat.mod_two_eq_zero_or_one p with h | h <;> simp [h] <;> omega
      rw [hL, hR]
      set k := (p - 1) / 2 with hkdef
      have hklen : k < q.length := by omega
      have hgo : ∀ CH, CH < q.length →
          (pushBalanceAux c (if c (nth q CH) (nth q k) = true then lswap q k CH else q) k).length
            = q.length ∧
          (∀ x ∈ pushBalanceAux c (if c (nth q CH) (nth q k) = true then lswap q k CH else q) k,
            x ∈ q) := by
        intro CH hCHlen
        by_cases hsw : c (nth q CH) (nth q k) = true
        · rw [if_pos hsw]
          have hlen2 : k < (lswap q k CH).length := by rw [lswap_length]; omega
          obtain ⟨ha, hb⟩ := IH k (by omega) (lswap q k CH) hlen2
          exact ⟨ha.trans (lswap_length q k CH),
            fun x hx => mem_lswap hklen hCHlen (hb x hx)⟩
        · rw [if_neg hsw]
          exact IH k (by omega) q (by omega)
      by_cases hsel : (decide (q.length ≤ 2 * k + 2) ||
          c (nth q (2 * k + 1)) (nth q (2 * k + 2))) = true
      · rw [if_pos hsel]
        exact hgo (2 * k + 1) (by omega)
      · rw [if_neg hsel]
        refine hgo (2 * k + 2) ?_
        rcases Nat.lt_or_ge (2 * k + 2) q.length with h | h
        · exact h
        · exact absurd (Bool.or_eq_true_iff.mpr (Or.inl (decide_eq_true h))) hsel

theorem push_length {α : Type} [Inhabited α] (c : α → α → Bool) (q : List α) (v : α) :
    (push c q v).length = q.length + 1 := by
  unfold push
  rw [(pushBalanceAux_len_mem c _ _ (by simp)).1]
  simp

theorem push_mem {α : Type} [Inhabited α] (c : α → α → Bool) (q : List α) (v : α)
    (x : α) (hx : x ∈ push c q v) : x ∈ q ∨ x = v := by
  unfold push at hx
  have := (pushBalanceAux_len_mem c ((q ++ [v]).length - 1) (q ++ [v]) (by simp)).2 x hx
  rcases List.mem_append.mp this with h | h
  · exact Or.inl h
  · exact Or.inr (List.mem_singleton.mp h)

theorem popBalanceAux_len_mem {α : Type} [Inhabited α] (c : α → α → Bool) :
    ∀ (n p : Nat) (q : List α), q.length ≤ p + n →
    (popBalanceAux c q p).length = q.length ∧
    (∀ x ∈ popBalanceAux c q p, x ∈ q) := by
  intro n
  induction n with
  | zero =>
    intro p q hn
    rw [popBalanceAux_eq, dif_neg (by omega)]
    exact ⟨rfl, fun x hx => hx⟩
  | succ n IH =>
    intro p q hn
    rcases Nat.lt_or_ge (p + 1) q.length with h1 | h1
    · rw [popBalanceAux_eq, dif_pos h1]
      by_cases hleft : (p + 1) * 2 - 1 < q.length
      · rw [dif_pos hleft]
        simp only [getD_eq_nth]
        rw [show (p + 1) * 2 - 1 = 2 * p + 1 by omega, show (p + 1) * 2 = 2 * p + 2 by omega]
        have hgo : ∀ CH, p < CH → CH < q.length →
            (popBalanceAux c (if c (nth q CH) (nth q p) = true then lswap q p CH else q)
              CH).length = q.length ∧
            (∀ x ∈ popBalanceAux c
              (if c (nth q CH) (nth q p) = true then lswap q p CH else q) CH, x ∈ q) := by
          intro CH hpCH hCHlen
          by_cases hsw : c (nth q CH) (nth q p) = true
          · rw [if_pos hsw]
            obtain ⟨ha, hb⟩ := IH CH (lswap q p CH) (by rw [lswap_length]; omega)
            exact ⟨ha.trans (lswap_length q p CH),
              fun x hx => mem_lswap (by omega) hCHlen (hb x hx)⟩
          · rw [if_neg hsw]
            exact IH CH q (by omega)
        by_cases hsel : (decide (q.length ≤ 2 * p + 2) ||
            c (nth q (2 * p + 1)) (nth q (2 * p + 2))) = true
        · rw [if_pos hsel]
          exact hgo (2 * p + 1) (by omega) (by omega)
        · rw [if_neg hsel]
          refine hgo (2 * p + 2) (by omega) ?_
          rcases Nat.lt_or_ge (2 * p + 2) q.length with h | h
          · exact h
          · exact absurd (Bool.or_eq_true_iff.mpr (Or.inl (decide_eq_true h))) hsel
      · rw [dif_neg hleft]
        exact ⟨rfl, fun x hx => hx⟩
    · rw [popBalanceAux_eq, dif_neg (by omega)]
      exact ⟨rfl, fun x hx => hx⟩

theorem popBalanceAux_len_mem2 {α : Type} [Inhabited α] (c : α → α → Bool)
    (p : Nat) (q : List α) :
    (popBalanceAux c q p).length = q.length ∧ (∀ x ∈ popBalanceAux c q p, x ∈ q) :=
  popBalanceAux_len_mem c q.length p q (by omega)

theorem popBalance_length {α : Type} [Inhabited α] (c : α → α → Bool) (q : List α) :
    (popBalance c q).length = q.length - 1 := by
  unfold popBalance
  rw [(popBalanceAux_len_mem2 c 0 _).1]
  split <;> simp

theorem popBalance_mem {α : Type} [Inhabited α] (c : α → α → Bool) (q : List α)
    (x : α) (hx : x ∈ popBalance c q) : x ∈ q := by
  unfold popBalance at hx
  have := (popBalanceAux_len_mem2 c 0 _).2 x hx
  revert this
  split
  · intro h
    rcases List.mem_or_eq_of_mem_set h with h2 | rfl
    · exact List.dropLast_subset q h2
    · rcases Nat.eq_zero_or_pos q.length with hq | hq
      · simp [nth, List.getD_eq_default, hq] at h
        rw [List.eq_nil_of_length_eq_zero hq] at h ⊢
        simpa using h
      · rw [getD_eq_nth]
        exact nth_mem q _ (by omega)
  · intro h
    exact List.dropLast_subset q h

theorem nth_append_left {α : Type} [Inhabited α] (q r : List α) (i : Nat)
    (h : i < q.length) : nth (q ++ r) i = nth q i := by
  rw [nth, nth, List.getD_append _ _ _ _ h]

section HeapCore2

variable {α : Type} [Inhabited α] (c : α → α → Bool) (P : α → Prop)

/-- `push` keeps the heap property: the appended element starts as the loop
pivot and the almost-heap invariant holds trivially. -/
theorem push_heapProp
    (hasym : ∀ a, P a → ∀ b, P b → c a b = true → c b a = false)
    (hneg : ∀ a, P a → ∀ b, P b → ∀ d, P d → c a b = false → c b d = false → c a d = false)
    (q : List α) (v : α) (hq : heapProp c q) (hP : ∀ x ∈ q, P x) (hPv : P v) :
    heapProp c (push c q v) := by
  unfold push
  have hlen : (q ++ [v]).length = q.length + 1 := by simp
  refine pushBalanceAux_heapProp c P hasym hneg _ _ ?_ ?_ ?_ ?_
  · intro x hx
    rcases List.mem_append.mp hx with h | h
    · exact hP x h
    · rw [List.mem_singleton.mp h]
      exact hPv
  · omega
  · intro i hi h0 hip
    rw [hlen] at hi
    have hi2 : i < q.length := by omega
    have hpar : (i - 1) / 2 < q.length := by omega
    rw [nth_append_left _ _ _ hi2, nth_append_left _ _ _ hpar]
    exact hq i hi2 h0
  · intro hp ch hch hchpar
    rw [hlen] at hch
    omega

/-- One step of the sift-down loop: if the heap property can only fail at the
pivot's pairs with its children, and those children additionally satisfy the
comparator against the pivot's parent, the same holds one level down at the
chosen child. -/
theorem popStep_inv
    (hasym : ∀ a, P a → ∀ b, P b → c a b = true → c b a = false)
    (hneg : ∀ a, P a → ∀ b, P b → ∀ d, P d → c a b = false → c b d = false → c a d = false)
    (p CH : Nat) (q : List α)
    (hP : ∀ x ∈ q, P x) (hplen : p < q.length)
    (hinv1 : ∀ i, i < q.length → 0 < i → (i - 1) / 2 ≠ p →
      c (nth q i) (nth q ((i - 1) / 2)) = false)
    (hinv2 : 0 < p → ∀ ch, ch < q.length → (ch - 1) / 2 = p →
      c (nth q ch) (nth q ((p - 1) / 2)) = false)
    (hCH : CH = 2 * p + 1 ∨ CH = 2 * p + 2) (hCHlen : CH < q.length)
    (hsib : ∀ s, (s = 2 * p + 1 ∨ s = 2 * p + 2) → s ≠ CH → s < q.length →
      c (nth q s) (nth q CH) = false) :
    ∀ q', q' = (if c (nth q CH) (nth q p) = true then lswap q p CH else q) →
    (∀ x ∈ q', P x) ∧ q'.length = q.length ∧
    (∀ i, i < q'.length → 0 < i → (i - 1) / 2 ≠ CH →
      c (nth q' i) (nth q' ((i - 1) / 2)) = false) ∧
    (0 < CH → ∀ ch, ch < q'.length → (ch - 1) / 2 = CH →
      c (nth q' ch) (nth q' ((CH - 1) / 2)) = false) := by
  intro q' hq'
  have hpCH : p ≠ CH := by omega
  have hCHpar : (CH - 1) / 2 = p := by omega
  have hPp : P (nth q p) := hP _ (nth_mem q p hplen)
  have hPCH : P (nth q CH) := hP _ (nth_mem q CH hCHlen)
  by_cases hsw : c (nth q CH) (nth q p) = true
  · rw [if_pos hsw] at hq'
    subst hq'
    have hlen : (lswap q p CH).length = q.length := lswap_length q p CH
    have hnp : nth (lswap q p CH) p = nth q CH := nth_lswap_left q p CH hplen (fun h => hpCH h.symm)
    have hnCH : nth (lswap q p CH) CH = nth q p := nth_lswap_right q p CH hCHlen
    have hno : ∀ t, t ≠ p → t ≠ CH → nth (lswap q p CH) t = nth q t :=
      fun t h1 h2 => nth_lswap_other q p CH t h1 h2
    refine ⟨fun x hx => hP x (mem_lswap hplen hCHlen hx), hlen, ?_, ?_⟩
    · intro i hi h0 hiCH
      rw [hlen] at hi
      rcases eq_or_ne i CH with rfl | hine
      · rw [hCHpar, hnCH, hnp]
        exact hasym _ hPCH _ hPp hsw
      · by_cases hpari : (i - 1) / 2 = p
        · -- i is the sibling of CH
          rw [hpari, hnp, hno i (by omega) hine]
          exact hsib i (by omega) hine hi
        · rcases eq_or_ne i p with rfl | hip
          · -- the pivot position now holds the old child
            have h0p : 0 < i := h0
            rw [hnp, hno ((i - 1) / 2) (by omega) (by omega)]
            have := hinv2 h0p CH hCHlen hCHpar
            exact this
          · rw [hno i hip hine, hno ((i - 1) / 2) hpari hiCH]
            exact hinv1 i hi h0 hpari
    · intro h0CH ch hch hchpar
      rw [hlen] at hch
      have hchp : ch ≠ p := by omega
      have hchCH : ch ≠ CH := by omega
      rw [hCHpar, hno ch hchp hchCH, hnp]
      have := hinv1 ch hch (by omega) (by omega)
      rw [hchpar] at this
      exact this
  · have hswf : c (nth q CH) (nth q p) = false := by
      revert hsw
      cases c (nth q CH) (nth q p) <;> simp
    rw [if_neg hsw] at hq'
    subst q'
    refine ⟨hP, rfl, ?_, ?_⟩
    · intro i hi h0 hiCH
      by_cases hpari : (i - 1) / 2 = p
      · rcases eq_or_ne i CH with rfl | hine
        · rw [hpari]
          exact hswf
        · rw [hpari]
          have h1 : c (nth q i) (nth q CH) = false := hsib i (by omega) hine hi
          exact hneg _ (hP _ (nth_mem q i hi)) _ hPCH _ hPp h1 hswf
      · exact hinv1 i hi h0 hpari
    · intro h0CH ch hch hchpar
      rw [hCHpar]
      have h1 : c (nth q ch) (nth q CH) = false := by
        have := hinv1 ch hch (by omega) (by omega)
        rw [hchpar] at this
        exact this
      exact hneg _ (hP _ (nth_mem q ch hch)) _ hPCH _ hPp h1 hswf

theorem popBalanceAux_heapProp
    (hasym : ∀ a, P a → ∀ b, P b → c a b = true → c b a = false)
    (hneg : ∀ a, P a → ∀ b, P b → ∀ d, P d → c a b = false → c b d = false → c a d = false) :
    ∀ (n p : Nat) (q : List α), q.length ≤ p + n → (∀ x ∈ q, P x) →
    (∀ i, i < q.length → 0 < i → (i - 1) / 2 ≠ p →
      c (nth q i) (nth q ((i - 1) / 2)) = false) →
    (0 < p → ∀ ch, ch < q.length → (ch - 1) / 2 = p →
      c (nth q ch) (nth q ((p - 1) / 2)) = false) →
    heapProp c (popBalanceAux c q p) := by
  intro n
  induction n with
  | zero =>
    intro p q hn hP hinv1 hinv2
    rw [popBalanceAux_eq, dif_neg (by omega)]
    intro i hi h0
    exact hinv1 i hi h0 (by omega)
  | succ n IH =>
    intro p q hn hP hinv1 hinv2
    rcases Nat.lt_or_ge (p + 1) q.length with h1 | h1
    · rw [popBalanceAux_eq, dif_pos h1]
      by_cases hleft : (p + 1) * 2 - 1 < q.length
      · rw [dif_pos hleft]
        simp only [getD_eq_nth]
        rw [show (p + 1) * 2 - 1 = 2 * p + 1 by omega, show (p + 1) * 2 = 2 * p + 2 by omega]
        have hgo : ∀ CH, (CH = 2 * p + 1 ∨ CH = 2 * p + 2) → CH < q.length →
            (∀ s, (s = 2 * p + 1 ∨ s = 2 * p + 2) → s ≠ CH → s < q.length →
              c (nth q s) (nth q CH) = false) →
            heapProp c (popBalanceAux c
              (if c (nth q CH) (nth q p) = true then lswap q p CH else q) CH) := by
          intro CH hCH hCHlen hsib
          obtain ⟨ha, hb, hc2, hd⟩ := popStep_inv c P hasym hneg p CH q hP (by omega)
            hinv1 hinv2 hCH hCHlen hsib _ rfl
          exact IH CH _ (by omega) ha hc2 hd
        by_cases hsel : (decide (q.length ≤ 2 * p + 2) ||
            c (nth q (2 * p + 1)) (nth q (2 * p + 2))) = true
        · rw [if_pos hsel]
          refine hgo (2 * p + 1) (Or.inl rfl) (by omega) ?_
          intro s hs hsne hslen
          have hs2 : s = 2 * p + 2 := by omega
          subst hs2
          rcases Bool.or_eq_true_iff.mp hsel with h | h
          · rw [decide_eq_true_eq] at h
            omega
          · exact hasym _ (hP _ (nth_mem q _ (by omega))) _ (hP _ (nth_mem q _ hslen)) h
        · rw [if_neg hsel]
          have hRlen : 2 * p + 2 < q.length := by
            rcases Nat.lt_or_ge (2 * p + 2) q.length with h | h
            · exact h
            · exact absurd (Bool.or_eq_true_iff.mpr (Or.inl (decide_eq_true h))) hsel
          have hLR : c (nth q (2 * p + 1)) (nth q (2 * p + 2)) = false := by
            rcases Bool.eq_false_or_eq_true (c (nth q (2 * p + 1)) (nth q (2 * p + 2))) with h | h
            · exact absurd (Bool.or_eq_true_iff.mpr (Or.inr h)) (fun hh => hsel hh)
            · exact h
          refine hgo (2 * p + 2) (Or.inr rfl) hRlen ?_
          intro s hs hsne hslen
          have hs2 : s = 2 * p + 1 := by omega
          subst hs2
          exact hLR
      · rw [dif_neg hleft]
        intro i hi h0
        exact hinv1 i hi h0 (by omega)
    · rw [popBalanceAux_eq, dif_neg (by omega)]
      intro i hi h0
      exact hinv1 i hi h0 (by omega)

end HeapCore2

theorem nth_dropLast {α : Type} [Inhabited α] (q : List α) (i : Nat)
    (h : i < q.length - 1) : nth q.dropLast i = nth q i := by
  have h1 : i < q.dropLast.length := by simp; omega
  have h2 : i < q.length := by omega
  rw [nth, nth, List.getD_eq_getElem _ _ h1, List.getD_eq_getElem _ _ h2]
  exact List.getElem_dropLast q i h1

section HeapCore3

variable {α : Type} [Inhabited α] (c : α → α → Bool) (P : α → Prop)

theorem popBalance_heapProp
    (hasym : ∀ a, P a → ∀ b, P b → c a b = true → c b a = false)
    (hneg : ∀ a, P a → ∀ b, P b → ∀ d, P d → c a b = false → c b d = false → c a d = false)
    (q : List α) (hq : heapProp c q) (hP : ∀ x ∈ q, P x) :
    heapProp c (popBalance c q) := by
  simp only [popBalance]
  by_cases h0 : 0 < q.dropLast.length
  · rw [if_pos h0]
    have hlen : q.dropLast.length = q.length - 1 := by simp
    have hlast : q.length - 1 < q.length := by omega
    refine popBalanceAux_heapProp c P hasym hneg
      (q.dropLast.set 0 (q.getD (q.length - 1) default)).length 0 _ (by omega) ?_ ?_ ?_
    · intro x hx
      rcases List.mem_or_eq_of_mem_set hx with h | rfl
      · exact hP x (List.dropLast_subset q h)
      · exact hP _ (by rw [getD_eq_nth]; exact nth_mem q _ hlast)
    · intro i hi h0i hpar
      rw [List.length_set, hlen] at hi
      rw [nth_set_ne _ _ _ _ (by omega), nth_set_ne _ _ _ _ (by omega),
        nth_dropLast _ _ (by omega), nth_dropLast _ _ (by omega)]
      exact hq i (by omega) h0i
    · intro h00
      omega
  · rw [if_neg h0]
    have : q.dropLast.length = 0 := by omega
    rw [List.length_eq_zero.mp this]
    rw [popBalanceAux_eq, dif_neg (by simp)]
    intro i hi
    simp at hi

theorem heapProp_root_min
    (hasym : ∀ a, P a → ∀ b, P b → c a b = true → c b a = false)
    (hneg : ∀ a, P a → ∀ b, P b → ∀ d, P d → c a b = false → c b d = false → c a d = false)
    (q : List α) (hq : heapProp c q) (hP : ∀ x ∈ q, P x) :
    ∀ i, i < q.length → c (nth q i) (nth q 0) = false := by
  intro i
  induction i using Nat.strong_induction_on with
  | _ i IH =>
    intro hi
    rcases Nat.eq_zero_or_pos i with rfl | h0
    · rcases Bool.eq_false_or_eq_true (c (nth q 0) (nth q 0)) with h | h
      · exact hasym _ (hP _ (nth_mem q 0 hi)) _ (hP _ (nth_mem q 0 hi)) h
      · exact h
    · have h1 := hq i hi h0
      have h2 := IH ((i - 1) / 2) (by omega) (by omega)
      exact hneg _ (hP _ (nth_mem q i hi)) _ (hP _ (nth_mem q _ (by omega))) _
        (hP _ (nth_mem q 0 (by omega))) h1 h2

theorem heapProp_root_min_mem
    (hasym : ∀ a, P a → ∀ b, P b → c a b = true → c b a = false)
    (hneg : ∀ a, P a → ∀ b, P b → ∀ d, P d → c a b = false → c b d = false → c a d = false)
    (q : List α) (hq : heapProp c q) (hP : ∀ x ∈ q, P x) :
    ∀ x ∈ q, c x (nth q 0) = false := by
  intro x hx
  obtain ⟨j, hj, rfl⟩ := List.mem_iff_getElem.mp hx
  have : q[j] = nth q j := (List.getD_eq_getElem q default hj).symm
  rw [this]
  exact heapProp_root_min c P hasym hneg q hq hP j hj

theorem ctrans
    (hasym : ∀ a, P a → ∀ b, P b → c a b = true → c b a = false)
    (hneg : ∀ a, P a → ∀ b, P b → ∀ d, P d → c a b = false → c b d = false → c a d = false)
    (a b d : α) (ha : P a) (hb : P b) (hd : P d)
    (h1 : c a b = true) (h2 : c b d = true) : c a d = true := by
  rcases Bool.eq_false_or_eq_true (c a d) with h | h
  · exact h
  · have h3 : c d b = false := hasym _ hb _ hd h2
    have h4 : c a b = false := hneg _ ha _ hd _ hb h h3
    simp [h4] at h1

/-- The travelling minimum: when the pivot holds an element nothing strictly
precedes, the sift-up loop carries a minimal element up to the root. -/
theorem pushBalanceAux_min
    (hasym : ∀ a, P a → ∀ b, P b → c a b = true → c b a = false)
    (hneg : ∀ a, P a → ∀ b, P b → ∀ d, P d → c a b = false → c b d = false → c a d = false) :
    ∀ (p : Nat) (q : List α), (∀ x ∈ q, P x) → p < q.length →
    (∀ x ∈ q, c x (nth q p) = false) →
    ∀ x ∈ pushBalanceAux c q p, c x (nth (pushBalanceAux c q p) 0) = false := by
  intro p
  induction p using Nat.strong_induction_on with
  | _ p IH =>
    intro q hP hplen hmin
    rcases Nat.eq_zero_or_pos p with rfl | hp
    · rw [pushBalanceAux_eq, dif_neg (by omega)]
      exact hmin
    · rw [pushBalanceAux_eq, dif_pos hp]
      simp only [getD_eq_nth]
      have hL : (if (p % 2 == 1) = true then p else p - 1) = 2 * ((p - 1) / 2) + 1 := by
        rcases Nat.mod_two_eq_zero_or_one p with h | h <;> simp [h] <;> omega
      have hR : (if (p % 2 == 0) = true then p else p + 1) = 2 * ((p - 1) / 2) + 2 := by
        rcases Nat.mod_two_eq_zero_or_one p with h | h <;> simp [h] <;> omega
      rw [hL, hR]
      set k := (p - 1) / 2 with hkdef
      have hklen : k < q.length := by omega
      have hpk : p = 2 * k + 1 ∨ p = 2 * k + 2 := by omega
      have hgo : ∀ CH, k < CH → CH < q.length → (∀ x ∈ q, c x (nth q CH) = false) →
          ∀ x ∈ pushBalanceAux c (if c (nth q CH) (nth q k) = true then lswap q k CH else q) k,
            c x (nth (pushBalanceAux c
              (if c (nth q CH) (nth q k) = true then lswap q k CH else q) k) 0) = false := by
        intro CH hkCH hCHlen hminCH
        by_cases hsw : c (nth q CH) (nth q k) = true
        · rw [if_pos hsw]
          refine IH k (by omega) _ (fun x hx => hP x (mem_lswap hklen hCHlen hx))
            (by rw [lswap_length]; omega) ?_
          intro x hx
          rw [nth_lswap_left q k CH hklen (by omega)]
          exact hminCH x (mem_lswap hklen hCHlen hx)
        · rw [if_neg hsw]
          have hswf : c (nth q CH) (nth q k) = false := by
            revert hsw
            cases c (nth q CH) (nth q k) <;> simp
          refine IH k (by omega) q hP (by omega) ?_
          intro x hx
          exact hneg _ (hP x hx) _ (hP _ (nth_mem q CH hCHlen)) _ (hP _ (nth_mem q k hklen))
            (hminCH x hx) hswf
      by_cases hsel : (decide (q.length ≤ 2 * k + 2) ||
          c (nth q (2 * k + 1)) (nth q (2 * k + 2))) = true
      · rw [if_pos hsel]
        refine hgo (2 * k + 1) (by omega) (by omega) ?_
        rcases eq_or_ne p (2 * k + 1) with hpp | hpp
        · rw [← hpp]
          exact hmin
        · have hpR : p = 2 * k + 2 := by omega
          have hLR : c (nth q (2 * k + 1)) (nth q (2 * k + 2)) = true := by
            rcases Bool.or_eq_true_iff.mp hsel with h | h
            · rw [decide_eq_true_eq] at h
              omega
            · exact h
          intro x hx
          rcases Bool.eq_false_or_eq_true (c x (nth q (2 * k + 1))) with h | h
          · have hc := ctrans c P hasym hneg x (nth q (2 * k + 1)) (nth q (2 * k + 2))
              (hP x hx) (hP _ (nth_mem q _ (by omega))) (hP _ (nth_mem q _ (by omega))) h hLR
            rw [← hpR] at hc
            rw [hmin x hx] at hc
            exact absurd hc (by simp)
          · exact h
      · rw [if_neg hsel]
        have hRlen : 2 * k + 2 < q.length := by
          rcases Nat.lt_or_ge (2 * k + 2) q.length with h | h
          · exact h
          · exact absurd (Bool.or_eq_true_iff.mpr (Or.inl (decide_eq_true h))) hsel
        have hLR : c (nth q (2 * k + 1)) (nth q (2 * k + 2)) = false := by
          rcases Bool.eq_false_or_eq_true (c (nth q (2 * k + 1)) (nth q (2 * k + 2))) with h | h
          · exact absurd (Bool.or_eq_true_iff.mpr (Or.inr h)) (fun hh => hsel hh)
          · exact h
        refine hgo (2 * k + 2) (by omega) hRlen ?_
        rcases eq_or_ne p (2 * k + 2) with hpp | hpp
        · rw [← hpp]
          exact hmin
        · have hpL : p = 2 * k + 1 := by omega
          intro x hx
          have h1 : c x (nth q (2 * k + 1)) = false := by
            rw [← hpL]
            exact hmin x hx
          exact hneg _ (hP x hx) _ (hP _ (nth_mem q _ (by omega))) _
            (hP _ (nth_mem q _ hRlen)) h1 hLR

/-- When the root is already minimal, the sift-up loop never moves it. -/
theorem pushBalanceAux_root
    (hasym : ∀ a, P a → ∀ b, P b → c a b = true → c b a = false)
    (hneg : ∀ a, P a → ∀ b, P b → ∀ d, P d → c a b = false → c b d = false → c a d = false) :
    ∀ (p : Nat) (q : List α), (∀ x ∈ q, P x) → p < q.length → 0 < p →
    (∀ x ∈ q, c x (nth q 0) = false) →
    nth (pushBalanceAux c q p) 0 = nth q 0 := by
  intro p
  induction p using Nat.strong_induction_on with
  | _ p IH =>
    intro q hP hplen hp hmin
    rw [pushBalanceAux_eq, dif_pos hp]
    simp only [getD_eq_nth]
    have hL : (if (p % 2 == 1) = true then p else p - 1) = 2 * ((p - 1) / 2) + 1 := by
      rcases Nat.mod_two_eq_zero_or_one p with h | h <;> simp [h] <;> omega
    have hR : (if (p % 2 == 0) = true then p else p + 1) = 2 * ((p - 1) / 2) + 2 := by
      rcases Nat.mod_two_eq_zero_or_one p with h | h <;> simp [h] <;> omega
    rw [hL, hR]
    set k := (p - 1) / 2 with hkdef
    have hklen : k < q.length := by omega
    have hgo : ∀ CH, CH < q.length → 0 < CH →
        nth (pushBalanceAux c (if c (nth q CH) (nth q k) = true then lswap q k CH else q) k) 0
          = nth q 0 := by
      intro CH hCHlen h0CH
      rcases Nat.eq_zero_or_pos k with hk0 | hk0
      · -- the parent is the root: minimality forbids the swap
        have hswf : c (nth q CH) (nth q k) = false := by
          rw [hk0]
          exact hmin _ (nth_mem q CH hCHlen)
        rw [if_neg (by rw [hswf]; simp), hk0]
        rw [pushBalanceAux_eq, dif_neg (by omega)]
      · by_cases hsw : c (nth q CH) (nth q k) = true
        · rw [if_pos hsw]
          have hroot : nth (lswap q k CH) 0 = nth q 0 :=
            nth_lswap_other q k CH 0 (by omega) (by omega)
          rw [IH k (by omega) _ (fun x hx => hP x (mem_lswap hklen hCHlen hx))
            (by rw [lswap_length]; omega) hk0 ?_, hroot]
          intro x hx
          rw [hroot]
          exact hmin x (mem_lswap hklen hCHlen hx)
        · rw [if_neg hsw]
          exact IH k (by omega) q hP (by omega) hk0 hmin
    by_cases hsel : (decide (q.length ≤ 2 * k + 2) ||
        c (nth q (2 * k + 1)) (nth q (2 * k + 2))) = true
    · rw [if_pos hsel]
      exact hgo (2 * k + 1) (by omega) (by omega)
    · rw [if_neg hsel]
      have hRlen : 2 * k + 2 < q.length := by
        rcases Nat.lt_or_ge (2 * k + 2) q.length with h | h
        · exact h
        · exact absurd (Bool.or_eq_true_iff.mpr (Or.inl (decide_eq_true h))) hsel
      exact hgo (2 * k + 2) hRlen (by omega)

end HeapCore3

section HeapPerm

variable {α : Type} [Inhabited α] [DecidableEq α] (c : α → α → Bool)

theorem pushBalanceAux_perm :
    ∀ (p : Nat) (q : List α), p < q.length →
    List.Perm (pushBalanceAux c q p) q := by
  intro p
  induction p using Nat.strong_induction_on with
  | _ p IH =>
    intro q hplen
    rcases Nat.eq_zero_or_pos p with rfl | hp
    · rw [pushBalanceAux_eq, dif_neg (by omega)]
    · rw [pushBalanceAux_eq, dif_pos hp]
      simp only [getD_eq_nth]
      have hL : (if (p % 2 == 1) = true then p else p - 1) = 2 * ((p - 1) / 2) + 1 := by
        rcases Nat.mod_two_eq_zero_or_one p with h | h <;> simp [h] <;> omega
      have hR : (if (p % 2 == 0) = true then p else p + 1) = 2 * ((p - 1) / 2) + 2 := by
        rcases Nat.mod_two_eq_zero_or_one p with h | h <;> simp [h] <;> omega
      rw [hL, hR]
      set k := (p - 1) / 2 with hkdef
      have hklen : k < q.length := by omega
      have hgo : ∀ CH, CH < q.length →
          List.Perm (pushBalanceAux c
            (if c (nth q CH) (nth q k) = true then lswap q k CH else q) k) q := by
        intro CH hCHlen
        by_cases hsw : c (nth q CH) (nth q k) = true
        · rw [if_pos hsw]
          exact (IH k (by omega) _ (by rw [lswap_length]; omega)).trans
            (lswap_perm q k CH hklen hCHlen)
        · rw [if_neg hsw]
          exact IH k (by omega) q (by omega)
      by_cases hsel : (decide (q.length ≤ 2 * k + 2) ||
          c (nth q (2 * k + 1)) (nth q (2 * k + 2))) = true
      · rw [if_pos hsel]
        exact hgo (2 * k + 1) (by omega)
      · rw [if_neg hsel]
        refine hgo (2 * k + 2) ?_
        rcases Nat.lt_or_ge (2 * k + 2) q.length with h | h
        · exact h
        · exact absurd (Bool.or_eq_true_iff.mpr (Or.inl (decide_eq_true h))) hsel

theorem push_perm (q : List α) (v : α) :
    List.Perm (push c q v) (q ++ [v]) := by
  unfold push
  exact pushBalanceAux_perm c _ _ (by simp)

theorem popBalanceAux_perm :
    ∀ (n p : Nat) (q : List α), q.length ≤ p + n →
    List.Perm (popBalanceAux c q p) q := by
  intro n
  induction n with
  | zero =>
    intro p q hn
    rw [popBalanceAux_eq, dif_neg (by omega)]
  | succ n IH =>
    intro p q hn
    rcases Nat.lt_or_ge (p + 1) q.length with h1 | h1
    · rw [popBalanceAux_eq, dif_pos h1]
      by_cases hleft : (p + 1) * 2 - 1 < q.length
      · rw [dif_pos hleft]
        simp only [getD_eq_nth]
        rw [show (p + 1) * 2 - 1 = 2 * p + 1 by omega, show (p + 1) * 2 = 2 * p + 2 by omega]
        have hgo : ∀ CH, p < CH → CH < q.length →
            List.Perm (popBalanceAux c
              (if c (nth q CH) (nth q p) = true then lswap q p CH else q) CH) q := by
          intro CH hpCH hCHlen
          by_cases hsw : c (nth q CH) (nth q p) = true
          · rw [if_pos hsw]
            exact (IH CH _ (by rw [lswap_length]; omega)).trans
              (lswap_perm q p CH (by omega) hCHlen)
          · rw [if_neg hsw]
            exact IH CH q (by omega)
        by_cases hsel : (decide (q.length ≤ 2 * p + 2) ||
            c (nth q (2 * p + 1)) (nth q (2 * p + 2))) = true
        · rw [if_pos hsel]
          exact hgo (2 * p + 1) (by omega) (by omega)
        · rw [if_neg hsel]
          refine hgo (2 * p + 2) (by omega) ?_
          rcases Nat.lt_or_ge (2 * p + 2) q.length with h | h
          · exact h
          · exact absurd (Bool.or_eq_true_iff.mpr (Or.inl (decide_eq_true h))) hsel
      · rw [dif_neg hleft]
    · rw [popBalanceAux_eq, dif_neg (by omega)]

theorem popBalance_cons_perm (q : List α) (h : 0 < q.length) :
    List.Perm (nth q 0 :: popBalance c q) q := by
  simp only [popBalance]
  by_cases h0 : 0 < q.dropLast.length
  · rw [if_pos h0]
    have hne : q ≠ [] := by
      intro hq
      rw [hq] at h
      simp at h
    have hdec := List.dropLast_append_getLast hne
    rcases hql : q.dropLast with _ | ⟨h0e, t⟩
    · rw [hql] at h0
      simp at h0
    · rw [hql] at hdec
      have hlast : q.getD (q.length - 1) default = q.getLast hne := by
        rw [List.getD_eq_getElem q default (by omega), List.getLast_eq_getElem]
      rw [hlast]
      have hset : (h0e :: t).set 0 (q.getLast hne) = q.getLast hne :: t := rfl
      rw [hset]
      have hperm := popBalanceAux_perm c (q.getLast hne :: t).length 0
        (q.getLast hne :: t) (by omega)
      refine (List.Perm.cons _ hperm).trans ?_
      have hq0 : nth q 0 = h0e := by
        rw [← hdec, nth_append_left _ _ 0 (by simp)]
        rfl
      rw [hq0]
      have p1 : List.Perm (q.getLast hne :: t) (t ++ [q.getLast hne]) :=
        (List.perm_append_singleton _ _).symm
      have p2 : List.Perm (h0e :: q.getLast hne :: t) ((h0e :: t) ++ [q.getLast hne]) :=
        List.Perm.cons h0e p1
      rw [hdec] at p2
      exact p2
  · rw [if_neg h0]
    have hlen1 : q.length = 1 := by
      have h2 : q.dropLast.length = 0 := by omega
      simp at h2
      omega
    obtain ⟨x, rfl⟩ := List.length_eq_one.mp hlen1
    have hd : ([x] : List α).dropLast = ([] : List α) := rfl
    rw [hd]
    rw [popBalanceAux_eq, dif_neg (by simp)]
    exact List.Perm.refl _

end HeapPerm

theorem popAllN_congr {α : Type} [Inhabited α] (c : α → α → Bool) :
    ∀ (n1 n2 : Nat) (q : List α), q.length ≤ n1 → q.length ≤ n2 →
    popAllN c n1 q = popAllN c n2 q := by
  intro n1
  induction n1 with
  | zero =>
    intro n2 q h1 _
    have hq : ¬ 0 < q.length := by omega
    cases n2 with
    | zero => rfl
    | succ n2 => simp [popAllN, hq]
  | succ n1 ih =>
    intro n2 q h1 h2
    cases n2 with
    | zero =>
      have hq : ¬ 0 < q.length := by omega
      simp [popAllN, hq]
    | succ n2 =>
      by_cases hq : 0 < q.length
      · simp only [popAllN, if_pos hq]
        refine congrArg _ (ih n2 _ ?_ ?_) <;> rw [popBalance_length] <;> omega
      · simp only [popAllN, if_neg hq]

theorem popAllList_eq {α : Type} [Inhabited α] (c : α → α → Bool) (q : List α) :
    popAllList c q =
      if 0 < q.length then nth q 0 :: popAllList c (popBalance c q) else [] := by
  unfold popAllList
  rcases hq : q.length with _ | n
  · rw [if_neg (by omega : ¬ (0 : Nat) < 0)]
    rfl
  · rw [if_pos (by omega : 0 < n + 1)]
    show popAllN c (n + 1) q = _
    simp only [popAllN]
    rw [if_pos (show 0 < q.length by omega)]
    refine congrArg _ (popAllN_congr c n _ _ ?_ ?_) <;> rw [popBalance_length] <;> omega

section PopAll

variable {α : Type} [Inhabited α] [DecidableEq α] (c : α → α → Bool) (P : α → Prop)

theorem popAllList_perm_sorted
    (hasym : ∀ a, P a → ∀ b, P b → c a b = true → c b a = false)
    (hneg : ∀ a, P a → ∀ b, P b → ∀ d, P d → c a b = false → c b d = false → c a d = false) :
    ∀ (n : Nat) (q : List α), q.length ≤ n → heapProp c q → (∀ x ∈ q, P x) →
    List.Perm (popAllList c q) q ∧
    List.Pairwise (fun a b => c b a = false) (popAllList c q) := by
  intro n
  induction n with
  | zero =>
    intro q hn hq hP
    have : q = [] := List.length_eq_zero.mp (by omega)
    subst this
    rw [popAllList_eq, if_neg (by simp)]
    exact ⟨List.Perm.refl _, List.Pairwise.nil⟩
  | succ n IH =>
    intro q hn hq hP
    by_cases h0 : 0 < q.length
    · rw [popAllList_eq, if_pos h0]
      have hb_heap : heapProp c (popBalance c q) := popBalance_heapProp c P hasym hneg q hq hP
      have hb_P : ∀ x ∈ popBalance c q, P x := fun x hx => hP x (popBalance_mem c q x hx)
      have hb_len : (popBalance c q).length ≤ n := by
        rw [popBalance_length]
        omega
      obtain ⟨hperm, hsorted⟩ := IH (popBalance c q) hb_len hb_heap hb_P
      constructor
      · exact (List.Perm.cons _ hperm).trans (popBalance_cons_perm c q h0)
      · refine List.Pairwise.cons ?_ hsorted
        intro b hb
        have hbq : b ∈ q :=
          popBalance_mem c q b (hperm.mem_iff.mp hb)
        exact heapProp_root_min_mem c P hasym hneg q hq hP b hbq
    · rw [popAllList_eq, if_neg h0]
      exact ⟨by
        have : q = [] := List.length_eq_zero.mp (by omega)
        rw [this], List.Pairwise.nil⟩

end PopAll

section RunOps

variable {α : Type} [Inhabited α] (c : α → α → Bool) (P : α → Prop)

theorem runOps_heapProp
    (hasym : ∀ a, P a → ∀ b, P b → c a b = true → c b a = false)
    (hneg : ∀ a, P a → ∀ b, P b → ∀ d, P d → c a b = false → c b d = false → c a d = false)
    (hPall : ∀ x : α, P x) :
    ∀ (ops : List (PQOp α)) (q : List α), heapProp c q → heapProp c (runOps c q ops) := by
  intro ops
  induction ops with
  | nil => exact fun q hq => hq
  | cons op rest IH =>
    intro q hq
    rw [runOps, List.foldl_cons]
    refine IH _ ?_
    cases op with
    | pushOp v => exact push_heapProp c P hasym hneg q v hq (fun x _ => hPall x) (hPall v)
    | popOp =>
      simp only [applyOp]
      split
      · exact popBalance_heapProp c P hasym hneg q hq (fun x _ => hPall x)
      · exact hq

theorem runOps_length :
    ∀ (ops : List (PQOp α)) (q : List α),
    (∀ n, numPop (ops.take n) ≤ numPush (ops.take n) + q.length) →
    (runOps c q ops).length + numPop ops = q.length + numPush ops := by
  intro ops
  induction ops with
  | nil =>
    intro q hbal
    simp [runOps, numPush, numPop]
  | cons op rest IH =>
    intro q hbal
    rw [runOps, List.foldl_cons]
    cases op with
    | pushOp v =>
      have hlen : (applyOp c q (PQOp.pushOp v)).length = q.length + 1 := by
        simp [applyOp, push_length]
      have := IH (applyOp c q (PQOp.pushOp v)) (by
        intro n
        have h := hbal (n + 1)
        simp [List.take_succ_cons, numPush, numPop] at h ⊢
        omega)
      rw [show runOps c (applyOp c q (PQOp.pushOp v)) rest
          = rest.foldl (applyOp c) (applyOp c q (PQOp.pushOp v)) from rfl] at this
      simp [numPush, numPop] at this ⊢
      omega
    | popOp =>
      have h1 := hbal 1
      simp [numPush, numPop] at h1
      have hq0 : 0 < q.length := by omega
      have hlen : (applyOp c q PQOp.popOp).length = q.length - 1 := by
        simp [applyOp, if_pos hq0, popBalance_length]
      have := IH (applyOp c q PQOp.popOp) (by
        intro n
        have h := hbal (n + 1)
        simp [List.take_succ_cons, numPush, numPop] at h ⊢
        omega)
      rw [hlen] at this
      rw [show runOps c (applyOp c q PQOp.popOp) rest
          = rest.foldl (applyOp c) (applyOp c q PQOp.popOp) from rfl] at this
      simp [numPush, numPop] at this ⊢
      omega

end RunOps

section AssocLemmas

variable {β : Type}

theorem assoc_find_isSome (m : List (Nat × β)) (k : Nat) :
    (m.find? (fun p => decide (p.1 = k))).isSome = true ↔ k ∈ m.map Prod.fst := by
  rw [List.find?_isSome]
  constructor
  · rintro ⟨x, hx, hpx⟩
    rw [decide_eq_true_eq] at hpx
    exact List.mem_map.mpr ⟨x, hx, hpx⟩
  · intro h
    obtain ⟨x, hx, hfx⟩ := List.mem_map.mp h
    exact ⟨x, hx, decide_eq_true hfx⟩

theorem assoc_find_set_self (m : List (Nat × β)) (k : Nat) (v : β) :
    List.find? (fun p => decide (p.1 = k))
      (if (m.find? (fun p => decide (p.1 = k))).isSome
       then m.map (fun p => if p.1 = k then (k, v) else p)
       else m ++ [(k, v)]) = some (k, v) := by
  by_cases h : (m.find? (fun p => decide (p.1 = k))).isSome = true
  · rw [if_pos h]
    obtain ⟨a, ha⟩ := Option.isSome_iff_exists.mp h
    have hpred : ((fun p => decide (p.1 = k)) ∘ (fun p : Nat × β => if p.1 = k then (k, v) else p))
        = (fun p => decide (p.1 = k)) := by
      funext p
      by_cases hp : p.1 = k <;> simp [hp]
    rw [List.find?_map, hpred, ha]
    have hak : a.1 = k := by
      have := List.find?_some ha
      rwa [decide_eq_true_eq] at this
    simp [Option.map, hak]
  · rw [if_neg h]
    rw [List.find?_append]
    have hnone : m.find? (fun p => decide (p.1 = k)) = none := by
      rcases hfind : m.find? (fun p => decide (p.1 = k)) with _ | a
      · exact hfind
      · rw [hfind] at h
        simp at h
    rw [hnone]
    simp [List.find?, Option.or]

theorem assoc_find_set_ne (m : List (Nat × β)) (k : Nat) (v : β) (j : Nat) (hj : j ≠ k) :
    List.find? (fun p => decide (p.1 = j))
      (if (m.find? (fun p => decide (p.1 = k))).isSome
       then m.map (fun p => if p.1 = k then (k, v) else p)
       else m ++ [(k, v)]) = m.find? (fun p => decide (p.1 = j)) := by
  by_cases h : (m.find? (fun p => decide (p.1 = k))).isSome = true
  · rw [if_pos h]
    have hpred : ((fun p => decide (p.1 = j)) ∘ (fun p : Nat × β => if p.1 = k then (k, v) else p))
        = (fun p => decide (p.1 = j)) := by
      funext p
      by_cases hp : p.1 = k
      · simp [hp, Ne.symm hj]
      · simp [hp]
    rw [List.find?_map, hpred]
    rcases hfind : m.find? (fun p => decide (p.1 = j)) with _ | a
    · rw [hfind]
      rfl
    · have haj : a.1 = j := by
        have := List.find?_some hfind
        rwa [decide_eq_true_eq] at this
      have hak2 : ¬ a.1 = k := by
        rw [haj]
        exact hj
      rw [hfind]
      simp [Option.map, hak2]
  · rw [if_neg h]
    rw [List.find?_append]
    rcases hfind : m.find? (fun p => decide (p.1 = j)) with _ | a
    · rw [hfind]
      simp [List.find?, Option.or, Ne.symm hj]
    · rw [hfind]
      rfl

theorem assoc_set_keys_mem (m : List (Nat × β)) (k : Nat) (v : β) (j : Nat) :
    (j ∈ (if (m.find? (fun p => decide (p.1 = k))).isSome
       then m.map (fun p => if p.1 = k then (k, v) else p)
       else m ++ [(k, v)]).map Prod.fst) ↔ (j ∈ m.map Prod.fst ∨ j = k) := by
  by_cases h : (m.find? (fun p => decide (p.1 = k))).isSome = true
  · rw [if_pos h]
    have hk : k ∈ m.map Prod.fst := (assoc_find_isSome m k).mp h
    constructor
    · intro hmem
      obtain ⟨p, hp, hfp⟩ := List.mem_map.mp hmem
      obtain ⟨p0, hp0, hfp0⟩ := List.mem_map.mp hp
      by_cases hpk : p0.1 = k
      · rw [← hfp0] at hfp
        simp [hpk] at hfp
        exact Or.inr hfp.symm
      · rw [← hfp0] at hfp
        simp [hpk] at hfp
        exact Or.inl (List.mem_map.mpr ⟨p0, hp0, hfp⟩)
    · intro hmem
      rcases hmem with hmem | hjeq
      · obtain ⟨p0, hp0, hfp0⟩ := List.mem_map.mp hmem
        by_cases hpk : p0.1 = k
        · rw [← hfp0, hpk]
          refine List.mem_map.mpr ⟨(k, v), ?_, rfl⟩
          exact List.mem_map.mpr ⟨p0, hp0, by simp [hpk]⟩
        · refine List.mem_map.mpr ⟨p0, ?_, hfp0⟩
          exact List.mem_map.mpr ⟨p0, hp0, by simp [hpk]⟩
      · obtain ⟨p0, hp0, hfp0⟩ := List.mem_map.mp hk
        by_cases hpk : p0.1 = k
        · rw [hjeq]
          refine List.mem_map.mpr ⟨(k, v), ?_, rfl⟩
          exact List.mem_map.mpr ⟨p0, hp0, by simp [hpk]⟩
        · exact absurd hfp0 hpk
  · rw [if_neg h]
    rw [List.map_append]
    simp [List.mem_append]

end AssocLemmas

theorem lookupD_setDist_self (d : DistMap) (k : Nat) (v : Option Nat) :
    lookupD (setDist d k v) k = some v := by
  unfold lookupD setDist
  rw [assoc_find_set_self]

theorem lookupD_setDist_ne (d : DistMap) (k : Nat) (v : Option Nat) (j : Nat)
    (hj : j ≠ k) : lookupD (setDist d k v) j = lookupD d j := by
  unfold lookupD setDist
  rw [assoc_find_set_ne _ _ _ _ hj]

theorem lookupA_setA_self (g : Adj) (k : Nat) (v : List (Nat × Nat)) :
    lookupA (setA g k v) k = some v := by
  unfold lookupA setA
  rw [assoc_find_set_self]

theorem lookupA_setA_ne (g : Adj) (k : Nat) (v : List (Nat × Nat)) (j : Nat)
    (hj : j ≠ k) : lookupA (setA g k v) j = lookupA g j := by
  unfold lookupA setA
  rw [assoc_find_set_ne _ _ _ _ hj]

theorem keysOf_setA (g : Adj) (k : Nat) (v : List (Nat × Nat)) (j : Nat) :
    j ∈ keysOf (setA g k v) ↔ j ∈ keysOf g ∨ j = k := by
  unfold keysOf setA
  exact assoc_set_keys_mem g k v j

theorem lookupA_isSome_iff (g : Adj) (k : Nat) :
    (lookupA g k).isSome = true ↔ k ∈ keysOf g := by
  unfold lookupA keysOf
  have h := assoc_find_isSome g k
  rcases hfind : g.find? (fun p => decide (p.1 = k)) with _ | a <;>
    rw [hfind] at h ⊢
  · simpa using h
  · simpa using h

theorem isNum_iff (o : Option (Option Nat)) :
    isNum o = true ↔ ∃ n, o = some (some n) := by
  rcases o with _ | _ | n <;> simp [isNum]

theorem nth_append_last {α : Type} [Inhabited α] (q : List α) (v : α) :
    nth (q ++ [v]) q.length = v := by
  induction q with
  | nil => rfl
  | cons a q ih =>
    simp only [List.cons_append, nth, List.length_cons, List.getD_cons_succ]
    exact ih

theorem dijkCompare_asym (d : DistMap) :
    ∀ a, (∃ n, lookupD d a = some (some n)) →
    ∀ b, (∃ n, lookupD d b = some (some n)) →
    dijkCompare d a b = true → dijkCompare d b a = false := by
  rintro a ⟨na, ha⟩ b ⟨nb, hb⟩ h
  have h' : na < nb := by simpa [dijkCompare, ha, hb, jsLt] using h
  simp [dijkCompare, ha, hb, jsLt]
  omega

theorem dijkCompare_negtrans (d : DistMap) :
    ∀ a, (∃ n, lookupD d a = some (some n)) →
    ∀ b, (∃ n, lookupD d b = some (some n)) →
    ∀ e, (∃ n, lookupD d e = some (some n)) →
    dijkCompare d a b = false → dijkCompare d b e = false →
    dijkCompare d a e = false := by
  rintro a ⟨na, ha⟩ b ⟨nb, hb⟩ e ⟨ne2, he⟩ h1 h2
  have h1' : ¬ na < nb := by simpa [dijkCompare, ha, hb, jsLt] using h1
  have h2' : ¬ nb < ne2 := by simpa [dijkCompare, hb, he, jsLt] using h2
  simp [dijkCompare, ha, he, jsLt]
  omega

/-- C3 (amended): after a strict decrease of a queued vertex and the
re-push the code performs, the pop returns the root and the root is minimal
for the live comparator — provided the heap property (for the live
comparator) held before the decrease.  `C3_counterexample` shows the claim
fails without that proviso. -/
theorem dijkstra_decrease_pop_min
    (d : DistMap) (q : List Nat) (u v : Nat)
    (hdef : ∀ x ∈ q, isNum (lookupD d x) = true)
    (hheap : heapProp (dijkCompare d) q)
    (hu : u ∈ q)
    (hdec : jsLt (some (some v)) (lookupD d u) = true) :
    (∀ x ∈ push (dijkCompare (setDist d u (some v))) q u,
      dijkCompare (setDist d u (some v)) x
        (nth (push (dijkCompare (setDist d u (some v))) q u) 0) = false) ∧
    (pop (dijkCompare (setDist d u (some v)))
        (push (dijkCompare (setDist d u (some v))) q u)).1
      = some (nth (push (dijkCompare (setDist d u (some v))) q u) 0) := by
  set d' := setDist d u (some v) with hd'
  obtain ⟨nu, hnu⟩ := (isNum_iff _).mp (hdef u hu)
  have hvnu : v < nu := by
    rw [hnu] at hdec
    simpa [jsLt] using hdec
  have hu' : lookupD d' u = some (some v) := lookupD_setDist_self d u (some v)
  have hne' : ∀ x, x ≠ u → lookupD d' x = lookupD d x :=
    fun x hx => lookupD_setDist_ne d u (some v) x hx
  have hdefA : ∀ x ∈ q ++ [u], ∃ n, lookupD d' x = some (some n) := by
    intro x hx
    by_cases hxu : x = u
    · exact ⟨v, by rw [hxu]; exact hu'⟩
    · have hxq : x ∈ q := by
        rcases List.mem_append.mp hx with h | h
        · exact h
        · exact absurd (List.mem_singleton.mp h) hxu
      obtain ⟨n, hn⟩ := (isNum_iff _).mp (hdef x hxq)
      exact ⟨n, by rw [hne' x hxu]; exact hn⟩
  have hq0 : 0 < q.length := List.length_pos.mpr (List.ne_nil_of_mem hu)
  have hrootmin : ∀ x ∈ q, dijkCompare d x (nth q 0) = false :=
    heapProp_root_min_mem (dijkCompare d)
      (fun x => ∃ n, lookupD d x = some (some n))
      (dijkCompare_asym d) (dijkCompare_negtrans d) q hheap
      (fun x hx => (isNum_iff _).mp (hdef x hx))
  have hrq : nth q 0 ∈ q := nth_mem q 0 hq0
  obtain ⟨nr, hnr⟩ := (isNum_iff _).mp (hdef (nth q 0) hrq)
  have hplen : ((q ++ [u]).length - 1) = q.length := by simp
  have hpush : push (dijkCompare d') q u
      = pushBalanceAux (dijkCompare d') (q ++ [u]) q.length := by
    rw [push, hplen]
  have hnthp : nth (q ++ [u]) q.length = u := nth_append_last q u
  have hmain : ∀ x ∈ push (dijkCompare d') q u,
      dijkCompare d' x (nth (push (dijkCompare d') q u) 0) = false := by
    by_cases hcase : ∀ x ∈ q ++ [u], dijkCompare d' x u = false
    · rw [hpush]
      exact pushBalanceAux_min (dijkCompare d')
        (fun x => ∃ n, lookupD d' x = some (some n))
        (dijkCompare_asym d') (dijkCompare_negtrans d')
        q.length (q ++ [u]) hdefA (by simp) (by rw [hnthp]; exact hcase)
    · push_neg at hcase
      obtain ⟨y, hy, hyu⟩ := hcase
      have hyu' : dijkCompare d' y u = true := by
        rcases Bool.eq_false_or_eq_true (dijkCompare d' y u) with h | h
        · exact h
        · exact absurd h hyu
      have hyne : y ≠ u := by
        intro h
        rw [h] at hyu'
        have : v < v := by simpa [dijkCompare, hu', jsLt] using hyu'
        omega
      have hyq : y ∈ q := by
        rcases List.mem_append.mp hy with h | h
        · exact h
        · exact absurd (List.mem_singleton.mp h) hyne
      obtain ⟨ny, hny⟩ := (isNum_iff _).mp (hdef y hyq)
      have hny' : lookupD d' y = some (some ny) := by
        rw [hne' y hyne]; exact hny
      have hnyv : ny < v := by
        have h2 := hyu'
        simp only [dijkCompare, hny', hu', jsLt] at h2
        simpa using h2
      have hyr := hrootmin y hyq
      have hnry : ¬ ny < nr := by simpa [dijkCompare, hny, hnr, jsLt] using hyr
      have hru : nth q 0 ≠ u := by
        intro h
        rw [h, hnu] at hnr
        have : nu = nr := by simpa using hnr
        omega
      have hnr' : lookupD d' (nth q 0) = some (some nr) := by
        rw [hne' _ hru]; exact hnr
      have hminA : ∀ x ∈ q ++ [u], dijkCompare d' x (nth (q ++ [u]) 0) = false := by
        have h0 : nth (q ++ [u]) 0 = nth q 0 := nth_append_left q [u] 0 hq0
        rw [h0]
        intro x hx
        by_cases hxu : x = u
        · rw [hxu]
          simp [dijkCompare, hu', hnr', jsLt]
          omega
        · have hxq : x ∈ q := by
            rcases List.mem_append.mp hx with h | h
            · exact h
            · exact absurd (List.mem_singleton.mp h) hxu
          obtain ⟨nx, hnx⟩ := (isNum_iff _).mp (hdef x hxq)
          have hnx' : lookupD d' x = some (some nx) := by
            rw [hne' x hxu]; exact hnx
          have hxr := hrootmin x hxq
          have hxnr : ¬ nx < nr := by simpa [dijkCompare, hnx, hnr, jsLt] using hxr
          simp [dijkCompare, hnx', hnr', jsLt]
          omega
      have hroot := pushBalanceAux_root (dijkCompare d')
        (fun x => ∃ n, lookupD d' x = some (some n))
        (dijkCompare_asym d') (dijkCompare_negtrans d')
        q.length (q ++ [u]) hdefA (by simp) hq0 hminA
      intro x hx
      rw [hpush] at hx ⊢
      rw [hroot]
      have hxA : x ∈ q ++ [u] := by
        rcases push_mem (dijkCompare d') q u x (by rw [hpush]; exact hx) with h | h
        · exact List.mem_append.mpr (Or.inl h)
        · exact List.mem_append.mpr (Or.inr (by simp [h]))
      exact hminA x hxA
  refine ⟨hmain, ?_⟩
  have hlen : (push (dijkCompare d') q u).length = q.length + 1 :=
    push_length (dijkCompare d') q u
  have hpos : 0 < (push (dijkCompare d') q u).length := by omega
  rw [pop, if_pos hpos]
  rfl

theorem AvoidReach.start_not_mem {g : Adj} {visited : List Nat} {a x : Nat}
    (h : AvoidReach g visited a x) : a ∉ visited := by
  induction h with
  | refl h => exact h
  | tail hab hbc hc ih => exact ih

theorem AvoidReach.end_not_mem {g : Adj} {visited : List Nat} {a x : Nat}
    (h : AvoidReach g visited a x) : x ∉ visited := by
  induction h with
  | refl h => exact h
  | tail hab hbc hc ih => exact hc

theorem AvoidReach.mono {g : Adj} {vis vis' : List Nat} {a x : Nat}
    (hsub : ∀ y, y ∈ vis → y ∈ vis')
    (h : AvoidReach g vis' a x) : AvoidReach g vis a x := by
  induction h with
  | refl h => exact AvoidReach.refl _ (fun hy => h (hsub _ hy))
  | tail hab hbc hc ih => exact AvoidReach.tail ih hbc (fun hy => hc (hsub _ hy))

theorem AvoidReach.trans {g : Adj} {vis : List Nat} {a b x : Nat}
    (h1 : AvoidReach g vis a b) (h2 : AvoidReach g vis b x) :
    AvoidReach g vis a x := by
  induction h2 with
  | refl h => exact h1
  | tail hab hbc hc ih => exact AvoidReach.tail ih hbc hc

/-- Splitting a chain at the vertex `curr` that is being marked visited. -/
theorem AvoidReach.split {g : Adj} {visited : List Nat} {curr a x : Nat}
    (h : AvoidReach g visited a x) :
    x = curr ∨ AvoidReach g (curr :: visited) a x ∨
      ∃ n, n ∈ (adjOf g curr).map Prod.fst ∧ AvoidReach g (curr :: visited) n x := by
  induction h with
  | refl hb =>
    by_cases hac : a = curr
    · exact Or.inl hac
    · refine Or.inr (Or.inl (AvoidReach.refl a ?_))
      intro hmem
      rcases List.mem_cons.mp hmem with h1 | h1
      · exact hac h1
      · exact hb h1
  | @tail b c hab hbc hc =>
    rename_i ih
    by_cases hcc : c = curr
    · exact Or.inl hcc
    · have hc' : c ∉ curr :: visited := by
        intro hmem
        rcases List.mem_cons.mp hmem with h1 | h1
        · exact hcc h1
        · exact hc h1
      rcases ih with hbcur | hmid | ⟨n, hn, hnb⟩
      · subst hbcur
        exact Or.inr (Or.inr ⟨c, hbc, AvoidReach.refl c hc'⟩)
      · exact Or.inr (Or.inl (AvoidReach.tail hmid hbc hc'))
      · exact Or.inr (Or.inr ⟨n, hn, AvoidReach.tail hnb hbc hc'⟩)

theorem countP_strict {α : Type} (l : List α) (p q : α → Bool)
    (hmono : ∀ x ∈ l, q x = true → p x = true) :
    ∀ x ∈ l, p x = true → q x = false → l.countP q < l.countP p := by
  induction l with
  | nil => intro x hx; exact absurd hx (List.not_mem_nil x)
  | cons a t ih =>
    intro x hx hpx hqx
    rw [List.countP_cons, List.countP_cons]
    rcases List.mem_cons.mp hx with heq | hxt
    · subst heq
      have hmon : t.countP q ≤ t.countP p :=
        List.countP_mono_left (fun y hy => hmono y (List.mem_cons_of_mem x hy))
      simp [hqx, hpx]
      omega
    · have hlt := ih (fun y hy => hmono y (List.mem_cons_of_mem a hy)) x hxt hpx hqx
      have hif : (if q a = true then 1 else 0) ≤ (if p a = true then 1 else 0) := by
        by_cases hqa : q a = true
        · rw [if_pos hqa, if_pos (hmono a (List.mem_cons_self a t) hqa)]
        · rw [if_neg hqa]
          omega
      omega

theorem adjOf_length_le (g : Adj) (k : Nat) :
    (adjOf g k).length ≤ totalEdges g := by
  unfold adjOf lookupA totalEdges
  rcases hfind : g.find? (fun p => decide (p.1 = k)) with _ | p <;> rw [hfind]
  · simp
  · have hmem := List.mem_of_find?_eq_some hfind
    simp only [Option.getD_some]
    exact List.single_le_sum (fun x _ => Nat.zero_le x) _
      (List.mem_map_of_mem (fun p => p.2.length) hmem)

theorem adjOf_not_key (g : Adj) (k : Nat) (h : k ∉ keysOf g) :
    adjOf g k = [] := by
  have hiff := lookupA_isSome_iff g k
  unfold adjOf
  rcases hl : lookupA g k with _ | v
  · rfl
  · rw [hl] at hiff
    simp at hiff
    exact absurd hiff h

theorem bfsFuel_isSome (g : Adj) :
    ∀ (fuel : Nat) (visited queue : List Nat),
    queue.length + unvisitedKeys g visited * (1 + totalEdges g) < fuel →
    (bfsFuel g fuel visited queue).isSome = true := by
  intro fuel
  induction fuel with
  | zero => intro visited queue h; exact absurd h (Nat.not_lt_zero _)
  | succ fuel IH =>
    intro visited queue hM
    match queue with
    | [] => simp [bfsFuel]
    | curr :: rest =>
      rcases hv : visited.contains curr with _ | _
      · have hv' : curr ∉ visited := by simpa using hv
        have hunf : bfsFuel g (fuel + 1) visited (curr :: rest)
            = (bfsFuel g fuel (curr :: visited) (rest ++ (adjOf g curr).map Prod.fst)).map
              (fun out => ((adjOf g curr).map (fun e => (curr, e.1, e.2)) ++ out.1, out.2)) := by
          simp [bfsFuel, hv']
        rw [hunf]
        have hadj : (adjOf g curr).length ≤ totalEdges g := adjOf_length_le g curr
        have hmono2 : unvisitedKeys g (curr :: visited) ≤ unvisitedKeys g visited := by
          apply List.countP_mono_left
          intro y hy h
          have h' : y ∉ curr :: visited := by simpa using h
          have h2 : y ∉ visited := fun hm => h' (List.mem_cons_of_mem _ hm)
          simpa using h2
        by_cases hkey : curr ∈ keysOf g
        · have hstrict : unvisitedKeys g (curr :: visited) < unvisitedKeys g visited := by
            refine countP_strict _ _ _ ?_ curr hkey ?_ ?_
            · intro y hy h
              have h' : y ∉ curr :: visited := by simpa using h
              have h2 : y ∉ visited := fun hm => h' (List.mem_cons_of_mem _ hm)
              simpa using h2
            · simpa using hv'
            · simp
          have hmul : (unvisitedKeys g (curr :: visited) + 1) * (1 + totalEdges g)
              ≤ unvisitedKeys g visited * (1 + totalEdges g) :=
            Nat.mul_le_mul_right _ hstrict
          rw [Nat.add_mul, Nat.one_mul] at hmul
          have hrec := IH (curr :: visited) (rest ++ (adjOf g curr).map Prod.fst) (by
            simp only [List.length_append, List.length_map]
            simp only [List.length_cons] at hM
            omega)
          rcases Option.isSome_iff_exists.mp hrec with ⟨val, hval⟩
          rw [hval]
          rfl
        · have hrec := IH (curr :: visited) (rest ++ (adjOf g curr).map Prod.fst) (by
            rw [adjOf_not_key g curr hkey]
            have hmul : unvisitedKeys g (curr :: visited) * (1 + totalEdges g)
                ≤ unvisitedKeys g visited * (1 + totalEdges g) :=
              Nat.mul_le_mul_right _ hmono2
            simp only [List.length_append, List.length_map, List.length_nil]
            simp only [List.length_cons] at hM
            omega)
          rcases Option.isSome_iff_exists.mp hrec with ⟨val, hval⟩
          rw [hval]
          rfl
      · have hv' : curr ∈ visited := by simpa using hv
        have hunf : bfsFuel g (fuel + 1) visited (curr :: rest)
            = bfsFuel g fuel visited rest := by
          simp [bfsFuel, hv']
        rw [hunf]
        apply IH
        simp only [List.length_cons] at hM
        omega

theorem bfs_isSome (g : Adj) (s : Nat) : (bfs g s).isSome = true := by
  apply bfsFuel_isSome
  have h1 : unvisitedKeys g [] ≤ (keysOf g).length := List.countP_le_length _
  have h2 : unvisitedKeys g [] * (1 + totalEdges g)
      ≤ (keysOf g).length * (1 + totalEdges g) := Nat.mul_le_mul_right _ h1
  simp only [bfsBound, List.length_cons, List.length_nil]
  omega

theorem bfsFuel_spec (g : Adj) :
    ∀ (fuel : Nat) (visited queue : List Nat)
      (calls : List (Nat × Nat × Nat)) (vfin : List Nat),
    bfsFuel g fuel visited queue = some (calls, vfin) →
    (∀ x, x ∈ vfin ↔ (x ∈ visited ∨ ∃ q0 ∈ queue, AvoidReach g visited q0 x)) ∧
    (∀ k, ((k ∉ visited ∧ ∃ q0 ∈ queue, AvoidReach g visited q0 k) →
        calls.countP (fun t => decide (t.1 = k)) = (adjOf g k).length) ∧
      ((k ∈ visited ∨ ¬ ∃ q0 ∈ queue, AvoidReach g visited q0 k) →
        calls.countP (fun t => decide (t.1 = k)) = 0)) := by
  intro fuel
  induction fuel with
  | zero =>
    intro visited queue calls vfin h
    exact absurd h (by simp [bfsFuel])
  | succ fuel IH =>
    intro visited queue calls vfin h
    match queue with
    | [] =>
      have hcv : ([], visited) = ((calls, vfin) : List (Nat × Nat × Nat) × List Nat) := by
        simpa [bfsFuel] using h
      obtain ⟨hcalls, hvfin⟩ : calls = [] ∧ vfin = visited := by
        cases hcv
        exact ⟨rfl, rfl⟩
      subst hcalls
      subst hvfin
      constructor
      · intro x
        simp
      · intro k
        constructor
        · rintro ⟨_, q0, hq0, _⟩
          exact absurd hq0 (List.not_mem_nil q0)
        · intro _
          simp
    | curr :: rest =>
      rcases hv : visited.contains curr with _ | _
      · have hv' : curr ∉ visited := by simpa using hv
        have hunf : bfsFuel g (fuel + 1) visited (curr :: rest)
            = (bfsFuel g fuel (curr :: visited)
                (rest ++ (adjOf g curr).map Prod.fst)).map
              (fun out => ((adjOf g curr).map (fun e => (curr, e.1, e.2)) ++ out.1, out.2)) := by
          simp [bfsFuel, hv']
        rw [hunf] at h
        rcases Option.map_eq_some'.mp h with ⟨out0, h0, hf⟩
        obtain ⟨calls0, vfin0⟩ := out0
        injection hf with hcalls hvfin
        subst hcalls
        subst hvfin
        obtain ⟨IH1, IH2⟩ := IH (curr :: visited) (rest ++ (adjOf g curr).map Prod.fst)
          calls0 vfin0 h0
        have Efwd : ∀ x, (∃ q0 ∈ curr :: rest, AvoidReach g visited q0 x) →
            x = curr ∨ ∃ q0 ∈ rest ++ (adjOf g curr).map Prod.fst,
              AvoidReach g (curr :: visited) q0 x := by
          rintro x ⟨q0, hq0, har⟩
          rcases @AvoidReach.split g visited curr _ _ har with hxc | hmid | ⟨n, hn, hnar⟩
          · exact Or.inl hxc
          · have hq0r : q0 ∈ rest := by
              have hq0nc : q0 ∉ [curr] := by
                intro hq
                have := hmid.start_not_mem
                simp at hq
                exact this (by simp [hq])
              rcases List.mem_cons.mp hq0 with h1 | h1
              · exact absurd (by simp [h1]) hq0nc
              · exact h1
            exact Or.inr ⟨q0, List.mem_append_left _ hq0r, hmid⟩
          · exact Or.inr ⟨n, List.mem_append_right _ hn, hnar⟩
        have Ebwd : ∀ x, (∃ q0 ∈ rest ++ (adjOf g curr).map Prod.fst,
              AvoidReach g (curr :: visited) q0 x) →
            ∃ q0 ∈ curr :: rest, AvoidReach g visited q0 x := by
          rintro x ⟨q0, hq0, har⟩
          have hsub : ∀ y, y ∈ visited → y ∈ curr :: visited :=
            fun y hy => List.mem_cons_of_mem _ hy
          have harv : AvoidReach g visited q0 x := har.mono hsub
          rcases List.mem_append.mp hq0 with h1 | h1
          · exact ⟨q0, List.mem_cons_of_mem _ h1, harv⟩
          · have hq0nv : q0 ∉ visited := fun hm => har.start_not_mem (hsub q0 hm)
            have hstep : AvoidReach g visited curr q0 :=
              AvoidReach.tail (AvoidReach.refl curr hv') h1 hq0nv
            exact ⟨curr, List.mem_cons_self _ _, hstep.trans harv⟩
        have Ecurr : ∃ q0 ∈ curr :: rest, AvoidReach g visited q0 curr :=
          ⟨curr, List.mem_cons_self _ _, AvoidReach.refl curr hv'⟩
        constructor
        · intro x
          rw [IH1 x]
          constructor
          · rintro (hx | hex)
            · rcases List.mem_cons.mp hx with h1 | h1
              · exact Or.inr (by rw [h1]; exact Ecurr)
              · exact Or.inl h1
            · exact Or.inr (Ebwd x hex)
          · rintro (hx | hex)
            · exact Or.inl (List.mem_cons_of_mem _ hx)
            · rcases Efwd x hex with h1 | h1
              · exact Or.inl (by rw [h1]; exact List.mem_cons_self _ _)
              · exact Or.inr h1
        · intro k
          have hcount_app : ((adjOf g curr).map (fun e => (curr, e.1, e.2)) ++ calls0).countP
              (fun t => decide (t.1 = k))
              = ((adjOf g curr).map (fun e => (curr, e.1, e.2))).countP
                  (fun t => decide (t.1 = k)) + calls0.countP (fun t => decide (t.1 = k)) :=
            List.countP_append _ _ _
          by_cases hk : k = curr
          · subst hk
            have hmapcnt : ((adjOf g k).map (fun e => (k, e.1, e.2))).countP
                (fun t => decide (t.1 = k)) = (adjOf g k).length := by
              rw [List.countP_map]
              have : ∀ a ∈ adjOf g k, ((fun t : Nat × Nat × Nat => decide (t.1 = k)) ∘
                  (fun e : Nat × Nat => (k, e.1, e.2))) a = true := by
                intro a _
                simp
              exact List.countP_eq_length.mpr this
            have hc0 : calls0.countP (fun t => decide (t.1 = k)) = 0 :=
              (IH2 k).2 (Or.inl (List.mem_cons_self _ _))
            constructor
            · intro _
              rw [hcount_app, hmapcnt, hc0]
              omega
            · rintro (hkv | hnex)
              · exact absurd hkv hv'
              · exact absurd Ecurr hnex
          · have hmapcnt : ((adjOf g curr).map (fun e => (curr, e.1, e.2))).countP
                (fun t => decide (t.1 = k)) = 0 := by
              rw [List.countP_map]
              apply List.countP_eq_zero.mpr
              intro a _
              simp
              exact fun h => absurd h.symm hk
            constructor
            · rintro ⟨hkv, hex⟩
              rw [hcount_app, hmapcnt]
              have hknc : k ∉ curr :: visited := by
                intro hm
                rcases List.mem_cons.mp hm with h1 | h1
                · exact hk h1
                · exact hkv h1
              rcases Efwd k hex with h1 | h1
              · exact absurd h1 hk
              · rw [(IH2 k).1 ⟨hknc, h1⟩]
                omega
            · rintro (hkv | hnex)
              · rw [hcount_app, hmapcnt]
                rw [(IH2 k).2 (Or.inl (List.mem_cons_of_mem _ hkv))]
              · rw [hcount_app, hmapcnt]
                have hnex' : ¬ ∃ q0 ∈ rest ++ (adjOf g curr).map Prod.fst,
                    AvoidReach g (curr :: visited) q0 k := by
                  intro hex
                  exact hnex (Ebwd k hex)
                rw [(IH2 k).2 (Or.inr hnex')]
      · have hv' : curr ∈ visited := by simpa using hv
        have hunf : bfsFuel g (fuel + 1) visited (curr :: rest)
            = bfsFuel g fuel visited rest := by
          simp [bfsFuel, hv']
        rw [hunf] at h
        obtain ⟨IH1, IH2⟩ := IH visited rest calls vfin h
        have Eq1 : ∀ x, (∃ q0 ∈ curr :: rest, AvoidReach g visited q0 x)
            ↔ ∃ q0 ∈ rest, AvoidReach g visited q0 x := by
          intro x
          constructor
          · rintro ⟨q0, hq0, har⟩
            rcases List.mem_cons.mp hq0 with h1 | h1
            · exact absurd hv' (by rw [← h1]; exact har.start_not_mem)
            · exact ⟨q0, h1, har⟩
          · rintro ⟨q0, hq0, har⟩
            exact ⟨q0, List.mem_cons_of_mem _ hq0, har⟩
        constructor
        · intro x
          rw [IH1 x, Eq1 x]
        · intro k
          constructor
          · rintro ⟨hkv, hex⟩
            exact (IH2 k).1 ⟨hkv, (Eq1 k).mp hex⟩
          · rintro (hkv | hnex)
            · exact (IH2 k).2 (Or.inl hkv)
            · exact (IH2 k).2 (Or.inr (fun hex => hnex ((Eq1 k).mpr hex)))

/-- C8: on every finite graph `Graph.bfs` terminates from any source; its
visited set is exactly the set of reachable vertices, and each reachable
vertex fires the visit callback exactly once per outgoing edge (an
unreachable vertex fires none), even when the graph has cycles and a vertex
occupies several queue slots. -/
theorem C8_bfs_correct (g : Adj) (s : Nat) :
    ∃ calls vfin, bfs g s = some (calls, vfin) ∧
    (∀ x, x ∈ vfin ↔ AvoidReach g [] s x) ∧
    (∀ k, (AvoidReach g [] s k →
        calls.countP (fun t => decide (t.1 = k)) = (adjOf g k).length) ∧
      (¬ AvoidReach g [] s k →
        calls.countP (fun t => decide (t.1 = k)) = 0)) := by
  have hs := bfs_isSome g s
  rcases Option.isSome_iff_exists.mp hs with ⟨out, hval⟩
  obtain ⟨calls, vfin⟩ := out
  rw [bfs] at hval
  obtain ⟨S1, S2⟩ := bfsFuel_spec g (bfsBound g [s]) [] [s] calls vfin hval
  refine ⟨calls, vfin, by rw [bfs]; exact hval, ?_, ?_⟩
  · intro x
    rw [S1 x]
    constructor
    · rintro (hx | ⟨q0, hq0, har⟩)
      · exact absurd hx (List.not_mem_nil x)
      · rw [List.mem_singleton.mp hq0] at har
        exact har
    · intro h
      exact Or.inr ⟨s, List.mem_singleton.mpr rfl, h⟩
  · intro k
    constructor
    · intro h
      exact (S2 k).1 ⟨List.not_mem_nil k, s, List.mem_singleton.mpr rfl, h⟩
    · intro h
      refine (S2 k).2 (Or.inr ?_)
      rintro ⟨q0, hq0, har⟩
      rw [List.mem_singleton.mp hq0] at har
      exact h har

-- ===== C7: permutation invariance of create =====

theorem keysOf_createStep (g : Adj) (e : Conn) (k : Nat) :
    k ∈ keysOf (createStep g e) ↔ k ∈ keysOf g ∨ k = e.1 ∨ k = e.2.1 := by
  simp only [createStep]
  rw [keysOf_setA, keysOf_setA]
  tauto

theorem keys_create_mem :
    ∀ (l : List Conn) (g : Adj) (k : Nat),
    k ∈ keysOf (l.foldl createStep g) ↔
      k ∈ keysOf g ∨ ∃ e ∈ l, k = e.1 ∨ k = e.2.1 := by
  intro l
  induction l with
  | nil => intro g k; simp
  | cons e t ih =>
    intro g k
    rw [List.foldl_cons, ih, keysOf_createStep]
    constructor
    · rintro ((hg | h1) | ⟨e2, he2, h2⟩)
      · exact Or.inl hg
      · exact Or.inr ⟨e, List.mem_cons_self _ _, h1⟩
      · exact Or.inr ⟨e2, List.mem_cons_of_mem _ he2, h2⟩
    · rintro (hg | ⟨e2, he2, h2⟩)
      · exact Or.inl (Or.inl hg)
      · rcases List.mem_cons.mp he2 with h3 | h3
        · exact Or.inl (Or.inr (by rw [h3] at h2; exact h2))
        · exact Or.inr ⟨e2, h3, h2⟩

theorem adjOf_createStep_ne (g : Adj) (e : Conn) (hne : e.1 ≠ e.2.1) (k : Nat) :
    adjOf (createStep g e) k =
      if k = e.1 then adjOf g k ++ [(e.2.1, e.2.2)] else adjOf g k := by
  have hstep : createStep g e
      = setA (setA g e.1 (adjOf g e.1 ++ [(e.2.1, e.2.2)])) e.2.1 (adjOf g e.2.1) := by
    simp only [createStep, if_neg hne]
    rfl
  rw [hstep]
  by_cases hk2 : k = e.2.1
  · have hk1 : ¬ k = e.1 := fun h => hne (h ▸ hk2)
    rw [if_neg hk1]
    unfold adjOf
    rw [hk2, lookupA_setA_self]
    rfl
  · unfold adjOf
    rw [lookupA_setA_ne _ _ _ _ hk2]
    by_cases hk1 : k = e.1
    · rw [if_pos hk1, hk1, lookupA_setA_self]
      rfl
    · rw [if_neg hk1, lookupA_setA_ne _ _ _ _ hk1]

theorem adjOf_create_acc :
    ∀ (l : List Conn) (g : Adj) (k : Nat), (∀ e ∈ l, e.1 ≠ e.2.1) →
    adjOf (l.foldl createStep g) k = adjOf g k ++ edgesFor l k := by
  intro l
  induction l with
  | nil => intro g k _; simp [edgesFor]
  | cons e t ih =>
    intro g k hsl
    rw [List.foldl_cons, ih _ _ (fun e2 he2 => hsl e2 (List.mem_cons_of_mem _ he2)),
      adjOf_createStep_ne g e (hsl e (List.mem_cons_self _ _)) k]
    have hfm : edgesFor (e :: t) k
        = (if e.1 = k then [(e.2.1, e.2.2)] else []) ++ edgesFor t k := by
      unfold edgesFor
      rw [List.filterMap_cons]
      by_cases he : e.1 = k
      · rw [if_pos he]
        simp [he]
      · rw [if_neg he]
        simp [he]
    rw [hfm]
    by_cases hk : k = e.1
    · rw [if_pos hk, if_pos hk.symm, List.append_assoc]
    · rw [if_neg hk, if_neg (fun h => hk h.symm), List.nil_append]

theorem adjOf_create (l : List Conn) (k : Nat) (hsl : ∀ e ∈ l, e.1 ≠ e.2.1) :
    adjOf (create l) k = edgesFor l k := by
  rw [create, adjOf_create_acc l [] k hsl]
  rfl

theorem create_perm_keys (l1 l2 : List Conn) (hp : List.Perm l1 l2) (k : Nat) :
    k ∈ keysOf (create l1) ↔ k ∈ keysOf (create l2) := by
  rw [create, create, keys_create_mem, keys_create_mem]
  constructor
  · rintro (h | ⟨e, he, h2⟩)
    · exact Or.inl h
    · exact Or.inr ⟨e, hp.mem_iff.mp he, h2⟩
  · rintro (h | ⟨e, he, h2⟩)
    · exact Or.inl h
    · exact Or.inr ⟨e, hp.mem_iff.mpr he, h2⟩

theorem create_perm_adj (l1 l2 : List Conn) (hp : List.Perm l1 l2)
    (hsl : ∀ e ∈ l1, e.1 ≠ e.2.1) (k : Nat) :
    List.Perm (adjOf (create l1) k) (adjOf (create l2) k) := by
  have hsl2 : ∀ e ∈ l2, e.1 ≠ e.2.1 := fun e he => hsl e (hp.mem_iff.mpr he)
  rw [adjOf_create l1 k hsl, adjOf_create l2 k hsl2]
  exact hp.filterMap _

/-- C1: refuted — `Graph.dijkstra` does not always return minimal path
costs.  On `cexG` from source 1 the code computes distance 41 for vertex
13 although the walk 1 → 3 → 11 → 5 → 13 costs 36, so the universally
quantified minimality statement is false. -/
theorem C1_dijkstra_bug :
    dijkstra cexG 1 = some cexDM ∧
    lookupD cexDM 13 = some (some 41) ∧
    Walk cexG 1 13 36 ∧
    ¬ (∀ (dm : DistMap) (k n : Nat), dijkstra cexG 1 = some dm →
        lookupD dm k = some (some n) → ∀ m, Walk cexG 1 k m → n ≤ m) := by
  have hwalk : Walk cexG 1 13 36 := by
    have h1 : Walk cexG 1 3 (0 + 18) := Walk.tail (Walk.refl 1) (by decide)
    have h2 : Walk cexG 1 11 (0 + 18 + 12) := Walk.tail h1 (by decide)
    have h3 : Walk cexG 1 5 (0 + 18 + 12 + 5) := Walk.tail h2 (by decide)
    have h4 : Walk cexG 1 13 (0 + 18 + 12 + 5 + 1) := Walk.tail h3 (by decide)
    exact h4
  refine ⟨by rfl, by decide, hwalk, ?_⟩
  intro h
  exact absurd (h cexDM 13 41 (by rfl) (by decide) 36 hwalk) (by decide)

/-- C2 counterexample: the demo run does not give vertex 4 the claimed
distance 7 (the code — correctly for this graph — computes 8). -/
theorem C2_counterexample :
    ¬ (∃ dm, dijkstra (create demo) 1 = some dm ∧ lookupD dm 4 = some (some 7)) := by
  rintro ⟨dm, hdm, h4⟩
  rw [show dijkstra (create demo) 1 = some demoDM from by rfl] at hdm
  cases Option.some.inj hdm
  exact absurd h4 (by decide)

/-- C2 (amended): on the demo edge list with source 1 the code returns
exactly the mapping 1 ↦ 0, 2 ↦ 2, 3 ↦ 3, 4 ↦ 8, 5 ↦ 6, 6 ↦ 9. -/
theorem C2_demo_run :
    dijkstra (create demo) 1 = some demoDM ∧
    demoDM.map Prod.fst = [1, 2, 3, 4, 5, 6] ∧
    lookupD demoDM 1 = some (some 0) ∧ lookupD demoDM 2 = some (some 2) ∧
    lookupD demoDM 3 = some (some 3) ∧ lookupD demoDM 4 = some (some 8) ∧
    lookupD demoDM 5 = some (some 6) ∧ lookupD demoDM 6 = some (some 9) :=
  ⟨by rfl, by decide⟩

/-- C3 counterexample: in the real run of `dijkstra` on `c3Graph`, popping
vertex 13 decreases the distance of vertex 12 — which is already inside the
queue — from 46 to 35 and re-pushes it, yet the next pop returns vertex 11
(distance 30) while vertex 4 (distance 20) is still queued: the pop is not
minimal for the live comparator. -/
theorem C3_counterexample :
    c3State.2.2.head? = some 13 ∧ c3State.1.contains 13 = false ∧
    (12 ∈ c3Qp) ∧ jsLt (lookupD c3Relax.1 12) (lookupD c3State.2.1 12) = true ∧
    (pop (dijkCompare c3Relax.1) c3Relax.2).1 = some 11 ∧
    (4 ∈ c3Relax.2) ∧ dijkCompare c3Relax.1 4 11 = true := by
  decide

/-- C3 witness: the amended theorem applied to a concrete three-element
heap whose last vertex is decreased from 9 to 0. -/
theorem C3_witness :
    ((∀ x ∈ [1, 2, 3], isNum (lookupD w3Dist x) = true) ∧
      heapProp (dijkCompare w3Dist) [1, 2, 3] ∧ 3 ∈ [1, 2, 3] ∧
      jsLt (some (some 0)) (lookupD w3Dist 3) = true) ∧
    ((∀ x ∈ push (dijkCompare (setDist w3Dist 3 (some 0))) [1, 2, 3] 3,
        dijkCompare (setDist w3Dist 3 (some 0)) x
          (nth (push (dijkCompare (setDist w3Dist 3 (some 0))) [1, 2, 3] 3) 0) = false) ∧
      (pop (dijkCompare (setDist w3Dist 3 (some 0)))
          (push (dijkCompare (setDist w3Dist 3 (some 0))) [1, 2, 3] 3)).1
        = some (nth (push (dijkCompare (setDist w3Dist 3 (some 0))) [1, 2, 3] 3) 0)) :=
  ⟨⟨by decide, by decide, by decide, by decide⟩,
    dijkstra_decrease_pop_min w3Dist [1, 2, 3] 3 0 (by decide) (by decide) (by decide)
      (by decide)⟩

/-- C4: for a comparator that behaves as a strict order (asymmetric, with
negatively transitive strictness), any sequence of pushes and pops from the
empty queue leaves the backing array satisfying the heap property. -/
theorem C4_heap_invariant (c : Nat → Nat → Bool)
    (hasym : ∀ a b : Nat, c a b = true → c b a = false)
    (hneg : ∀ a b e : Nat, c a b = false → c b e = false → c a e = false)
    (ops : List (PQOp Nat)) :
    heapProp c (runOps c [] ops) := by
  refine runOps_heapProp c (fun _ => True) ?_ ?_ (fun _ => trivial) ops [] ?_
  · exact fun a _ b _ h => hasym a b h
  · exact fun a _ b _ e _ h1 h2 => hneg a b e h1 h2
  · intro i hi h0
    simp at hi

/-- C4 witness: the ascending preset satisfies the order hypotheses, and a
concrete five-operation run keeps the heap property. -/
theorem C4_witness :
    (∀ a b : Nat, minCompare a b = true → minCompare b a = false) ∧
    (∀ a b e : Nat, minCompare a b = false → minCompare b e = false →
      minCompare a e = false) ∧
    heapProp minCompare (runOps minCompare []
      [PQOp.pushOp 3, PQOp.pushOp 1, PQOp.pushOp 2, PQOp.popOp, PQOp.pushOp 0]) :=
  ⟨fun a b h => by simp [minCompare] at *; omega,
   fun a b e h1 h2 => by simp [minCompare] at *; omega,
   C4_heap_invariant minCompare
     (fun a b h => by simp [minCompare] at *; omega)
     (fun a b e h1 h2 => by simp [minCompare] at *; omega)
     [PQOp.pushOp 3, PQOp.pushOp 1, PQOp.pushOp 2, PQOp.popOp, PQOp.pushOp 0]⟩

/-- C5: popping every element of a backing array that satisfies the heap
property returns a permutation of it in sorted order — ascending for the
min preset, descending for the max preset. -/
theorem C5_pop_sorted (q : List Nat) :
    (heapProp minCompare q →
      List.Perm (popAllList minCompare q) q ∧
      List.Sorted (fun a b => a ≤ b) (popAllList minCompare q)) ∧
    (heapProp maxCompare q →
      List.Perm (popAllList maxCompare q) q ∧
      List.Sorted (fun a b => b ≤ a) (popAllList maxCompare q)) := by
  constructor
  · intro hq
    obtain ⟨hperm, hsort⟩ := popAllList_perm_sorted minCompare (fun _ => True)
      (fun a _ b _ h => by simp [minCompare] at *; omega)
      (fun a _ b _ e _ h1 h2 => by simp [minCompare] at *; omega)
      q.length q (le_refl _) hq (fun x _ => trivial)
    refine ⟨hperm, hsort.imp ?_⟩
    intro a b h
    simp [minCompare] at h
    omega
  · intro hq
    obtain ⟨hperm, hsort⟩ := popAllList_perm_sorted maxCompare (fun _ => True)
      (fun a _ b _ h => by simp [maxCompare] at *; omega)
      (fun a _ b _ e _ h1 h2 => by simp [maxCompare] at *; omega)
      q.length q (le_refl _) hq (fun x _ => trivial)
    refine ⟨hperm, hsort.imp ?_⟩
    intro a b h
    simp [maxCompare] at h
    omega

/-- C5 witness: a concrete min-heap pops to an ascending permutation, and
the max preset run of the source's demo (push 1..5, pop all) yields
5, 4, 3, 2, 1. -/
theorem C5_witness :
    heapProp minCompare [1, 3, 2, 5, 4] ∧
    (List.Perm (popAllList minCompare [1, 3, 2, 5, 4]) [1, 3, 2, 5, 4] ∧
      List.Sorted (fun a b => a ≤ b) (popAllList minCompare [1, 3, 2, 5, 4])) ∧
    popAllList maxCompare (([1, 2, 3, 4, 5] : List Nat).foldl (push maxCompare) [])
      = [5, 4, 3, 2, 1] :=
  ⟨by decide, (C5_pop_sorted [1, 3, 2, 5, 4]).1 (by decide), by decide⟩

/-- C6: refuted — a self-loop `(5, 5, 7)` on a fresh key is lost:
`Graph.create` stores vertex 5 with an empty edge list, because the source
creates two distinct `Vertex` objects for the same key and the second one
(without the edge) overwrites the first in the lookup table. -/
theorem C6_selfloop_bug :
    create [((5 : Nat), (5 : Nat), (7 : Nat))] = [(5, [])] ∧
    adjOf (create [((5 : Nat), (5 : Nat), (7 : Nat))]) 5 = [] := by
  decide

/-- C7 counterexample: the edge lists `[(5,5,7), (5,1,1)]` and
`[(5,1,1), (5,5,7)]` are permutations of each other, but the graphs they
build give vertex 5 different edge multisets (the self-loop is lost in one
order and kept in the other). -/
theorem C7_counterexample :
    List.Perm [((5 : Nat), (5 : Nat), (7 : Nat)), ((5 : Nat), (1 : Nat), (1 : Nat))]
      [((5 : Nat), (1 : Nat), (1 : Nat)), ((5 : Nat), (5 : Nat), (7 : Nat))] ∧
    ¬ List.Perm
      (adjOf (create [((5 : Nat), (5 : Nat), (7 : Nat)), ((5 : Nat), (1 : Nat), (1 : Nat))]) 5)
      (adjOf (create [((5 : Nat), (1 : Nat), (1 : Nat)), ((5 : Nat), (5 : Nat), (7 : Nat))]) 5) := by
  decide

/-- C7 (amended): permuting the edge list never changes the key set of the
graph, and — provided the list has no self-loops — it changes each
vertex's outgoing edge list only up to permutation. -/
theorem C7_create_perm (l1 l2 : List Conn) (hp : List.Perm l1 l2) :
    (∀ k, k ∈ keysOf (create l1) ↔ k ∈ keysOf (create l2)) ∧
    ((∀ e ∈ l1, e.1 ≠ e.2.1) →
      ∀ k, List.Perm (adjOf (create l1) k) (adjOf (create l2) k)) :=
  ⟨create_perm_keys l1 l2 hp, fun hsl k => create_perm_adj l1 l2 hp hsl k⟩

/-- C7 witness: the amended theorem applied to a concrete self-loop-free
list and a rotation of it. -/
theorem C7_witness :
    List.Perm [((1 : Nat), (2 : Nat), (3 : Nat)), ((1 : Nat), (4 : Nat), (6 : Nat)),
        ((4 : Nat), (5 : Nat), (6 : Nat))]
      [((4 : Nat), (5 : Nat), (6 : Nat)), ((1 : Nat), (2 : Nat), (3 : Nat)),
        ((1 : Nat), (4 : Nat), (6 : Nat))] ∧
    (∀ e ∈ [((1 : Nat), (2 : Nat), (3 : Nat)), ((1 : Nat), (4 : Nat), (6 : Nat)),
        ((4 : Nat), (5 : Nat), (6 : Nat))], e.1 ≠ e.2.1) ∧
    List.Perm
      (adjOf (create [((1 : Nat), (2 : Nat), (3 : Nat)), ((1 : Nat), (4 : Nat), (6 : Nat)),
        ((4 : Nat), (5 : Nat), (6 : Nat))]) 1)
      (adjOf (create [((4 : Nat), (5 : Nat), (6 : Nat)), ((1 : Nat), (2 : Nat), (3 : Nat)),
        ((1 : Nat), (4 : Nat), (6 : Nat))]) 1) :=
  ⟨by decide, by decide,
    (C7_create_perm _ _ (by decide)).2 (by decide) 1⟩

/-- C8 witness: on the demo graph, BFS from vertex 1 terminates and marks
the reachable vertex 6 visited. -/
theorem C8_witness :
    ∃ calls vfin, bfs (create demo) 1 = some (calls, vfin) ∧ 6 ∈ vfin := by
  obtain ⟨calls, vfin, hrun, hvis, _⟩ := C8_bfs_correct (create demo) 1
  refine ⟨calls, vfin, hrun, (hvis 6).mpr ?_⟩
  have h1 : AvoidReach (create demo) [] 1 2 :=
    AvoidReach.tail (AvoidReach.refl 1 (List.not_mem_nil 1)) (by decide)
      (List.not_mem_nil 2)
  have h2 : AvoidReach (create demo) [] 1 4 :=
    AvoidReach.tail h1 (by decide) (List.not_mem_nil 4)
  exact AvoidReach.tail h2 (by decide) (List.not_mem_nil 6)

/-- C9 counterexample: the interleaving pop-then-push has k = 1 pushes and
j = 1 pops, yet the final size is 1, not k − j = 0 (the pop on the empty
queue was absorbed by the sentinel). -/
theorem C9_counterexample :
    ¬ (∀ (ops : List (PQOp Nat)), numPop ops ≤ numPush ops →
        (runOps minCompare [] ops).length = numPush ops - numPop ops) := by
  intro h
  exact absurd (h [PQOp.popOp, PQOp.pushOp 0] (by decide)) (by decide)

/-- C9 (amended): when every prefix of the interleaving has at least as
many pushes as pops, the final size is the number of pushes minus the
number of pops; popping or peeking the empty queue returns the sentinel and
leaves the queue unchanged. -/
theorem C9_size_invariant (c : Nat → Nat → Bool) (ops : List (PQOp Nat))
    (hbal : prefixBalanced ops = true) :
    (runOps c [] ops).length = numPush ops - numPop ops ∧
    pop c ([] : List Nat) = (none, []) ∧
    pqGet ([] : List Nat) = none := by
  have hall : ∀ n, numPop (ops.take n) ≤ numPush (ops.take n) + ([] : List Nat).length := by
    intro n
    simp only [List.length_nil, Nat.add_zero]
    by_cases hn : n ≤ ops.length
    · have hmem : n ∈ List.range (ops.length + 1) := List.mem_range.mpr (by omega)
      exact of_decide_eq_true (List.all_eq_true.mp hbal n hmem)
    · rw [List.take_of_length_le (by omega)]
      have hmem : ops.length ∈ List.range (ops.length + 1) := List.mem_range.mpr (by omega)
      have h := of_decide_eq_true (List.all_eq_true.mp hbal ops.length hmem)
      rw [List.take_length] at h
      exact h
  have hlen := runOps_length c ops [] hall
  refine ⟨?_, rfl, rfl⟩
  simp only [List.length_nil, Nat.zero_add] at hlen
  omega

/-- C9 witness: the amended theorem applied to two pushes and one pop. -/
theorem C9_witness :
    prefixBalanced [PQOp.pushOp (5 : Nat), PQOp.pushOp 2, PQOp.popOp] = true ∧
    ((runOps minCompare [] [PQOp.pushOp (5 : Nat), PQOp.pushOp 2, PQOp.popOp]).length
        = numPush [PQOp.pushOp (5 : Nat), PQOp.pushOp 2, PQOp.popOp]
          - numPop [PQOp.pushOp (5 : Nat), PQOp.pushOp 2, PQOp.popOp] ∧
      pop minCompare ([] : List Nat) = (none, []) ∧
      pqGet ([] : List Nat) = none) :=
  ⟨by decide,
    C9_size_invariant minCompare [PQOp.pushOp (5 : Nat), PQOp.pushOp 2, PQOp.popOp]
      (by decide)⟩

/-- C10: a queue constructed without a comparator behaves exactly like a
`MinQueue`: the default comparator is the `MinQueue` comparator, so every
run of push/pop/get requests from any initial array produces identical
outputs and identical backing arrays. -/
theorem C10_default_is_min :
    defaultCompare = minCompare ∧
    ∀ (init : List Nat) (ops : List (QOp Nat)),
      runQ defaultCompare init ops = runQ minCompare init ops :=
  ⟨rfl, fun _ _ => rfl⟩

end DijkstraJS
